import Mathlib

/-!
Verification of the `boss` process supervisor (`src/boss.rs`).

The development shallowly embeds the supervisor's data model and its event
loop.  The Supervision Set (the Rust `Cmds = HashMap<String, CmdSpec>`) is
modelled as an association list with unique keys; the set of outstanding
process-completion futures (the `FuturesUnordered` stream) as a list of
`Pending` handles.  OS-level nondeterminism (spawn success and the assigned
pid, signal delivery success) is supplied through explicit oracle arguments,
and every spawn / signal / log side effect is recorded in an `Effects`
value so that theorems can count them.  A Rust panic (out-of-bounds index,
`unwrap` of `None`) is modelled as the `none` result of an `Option`-valued
step function.
-/

namespace Boss

/-- Outcome an OS spawn attempt would have, supplied as an oracle:
either the launch succeeds and the OS assigns `pid`, or it fails with an
I/O error (executable missing, permission denied, ...). -/
inductive SpawnOutcome where
  | ok (pid : Int)
  | err
deriving DecidableEq, Repr

/-- `CmdSpec` from `boss.rs`: the tokenized command line plus the optional
pid of the currently running process (`#[serde(skip_deserializing)]`, so a
freshly deserialized spec always has `pid = none`). -/
structure CmdSpec where
  argv : List String
  pid : Option Int
deriving DecidableEq, Repr

/-- `Cmds = HashMap<String, CmdSpec>`: the Supervision Set, modelled as an
association list with unique keys. -/
abbrev Cmds := List (String × CmdSpec)

/-- A new configuration as produced by `read_cmds`: name to argv.  The pid
field of every deserialized `CmdSpec` is `none`, so only argv is carried. -/
abbrev NewCfg := List (String × List String)

/-- A pending completion: the future created by `get_cmd_future`, which
captures the command's name and its start time and outlives the Entry it
was created from. -/
structure Pending where
  name : String
  startedAt : Nat
deriving DecidableEq, Repr

/-- `CompletedCmd` from `boss.rs`: the resolved value of a pending
completion.  `exitCode = some c` models `ExitStatus::code() = Some(c)`
(normal exit) and `none` models termination by a signal. -/
structure CompletedCmd where
  name : String
  startedAt : Nat
  exitCode : Option Int
deriving DecidableEq, Repr

/-- A record of one `kill(pid, SIGTERM)` call: target name, target pid and
whether the signal was delivered. -/
structure KillRec where
  name : String
  pid : Int
  ok : Bool
deriving DecidableEq, Repr

/-- A record of one `get_cmd_future` spawn attempt: the name, the argv used
and `some pid` on success / `none` on an I/O error. -/
structure SpawnRec where
  name : String
  argv : List String
  result : Option Int
deriving DecidableEq, Repr

/-- The log lines `boss.rs` emits, one constructor per `println!` /
`eprintln!` site. -/
inductive LogMsg where
  | stopping (name : String) (pid : Int)
  | signalError (name : String)
  | notRunning (name : String)
  | starting (name : String)
  | spawnFailed (name : String)
  | spawnErrorAnon
  | exited (name : String) (code : Option Int) (elapsedSec : Nat)
  | restarting (name : String)
  | finalInvocation (name : String)
  | noChanges
  | configReadError
  | completionError
  | allFinished
deriving DecidableEq, Repr

/-- The observable side effects of one event-handler execution. -/
structure Effects where
  kills : List KillRec
  spawnCalls : List SpawnRec
  logs : List LogMsg
deriving DecidableEq, Repr

/-- The state owned by the event loop: the Supervision Set and the active
set of outstanding pending completions. -/
structure LoopState where
  cmds : Cmds
  futures : List Pending
deriving DecidableEq, Repr

/-- `HashMap::get`: first (unique) binding of the key. -/
def findCmd? (n : String) : Cmds → Option CmdSpec
  | [] => none
  | (m, c) :: rest => if m = n then some c else findCmd? n rest

/-- `HashMap::get` on a freshly read configuration. -/
def lookupNew (n : String) : NewCfg → Option (List String)
  | [] => none
  | (m, a) :: rest => if m = n then some a else lookupNew n rest

/-- `HashMap::insert`: replace the binding of the key if present, else
append a new binding. -/
def insertCmd (n : String) (c : CmdSpec) : Cmds → Cmds
  | [] => [(n, c)]
  | (m, c') :: rest => if m = n then (n, c) :: rest else (m, c') :: insertCmd n c rest

/-- `HashMap::remove`: drop the (unique) binding of the key. -/
def removeCmd (n : String) : Cmds → Cmds
  | [] => []
  | (m, c) :: rest => if m = n then rest else (m, c) :: removeCmd n rest

/-- Result of `get_cmd_future`.  `indexPanic` models the unguarded
`&cmd.argv[0]` index, which panics when argv is empty; `ioError` the `Err`
of `Command::spawn`; `spawned` carries the pid the OS assigned, the updated
`CmdSpec` (pid recorded) and the pending-completion future. -/
inductive SpawnRes where
  | indexPanic
  | ioError
  | spawned (pid : Int) (cmd : CmdSpec) (fut : Pending)
deriving DecidableEq, Repr

/-- `get_cmd_future` from `boss.rs`: build the command from `argv[0]` and
the remaining arguments, spawn it, record the pid in the spec and return a
future capturing the name and the start time. -/
def get_cmd_future (o : SpawnOutcome) (name : String) (cmd : CmdSpec) (now : Nat) : SpawnRes :=
  match cmd.argv with
  | [] => .indexPanic
  | _ :: _ =>
    match o with
    | .err => .ioError
    | .ok pid => .spawned pid { cmd with pid := some pid } ⟨name, now⟩

/-- `stop_process` from `boss.rs`.  `killOk` is the oracle for the
`kill(pid, SIGTERM)` call.  The lookup is `cmds.get(cmd_name).unwrap()`:
a missing name is a panic, modelled as `none`.  On delivered signal the
entry is removed; on a signal error or an absent pid the map is untouched. -/
def stop_process (killOk : Bool) (name : String) (cmds : Cmds) :
    Option (Cmds × List KillRec × List LogMsg) :=
  match findCmd? name cmds with
  | none => none
  | some cmd =>
    match cmd.pid with
    | some pid =>
      if killOk then some (removeCmd name cmds, [⟨name, pid, true⟩], [.stopping name pid])
      else some (cmds, [⟨name, pid, false⟩], [.signalError name])
    | none => some (cmds, [], [.notRunning name])

/-- The `removed` set of a reload: current names absent from the new
configuration (`cur_cmd_names.difference(&updated_cmd_names)`). -/
def removedNames (cmds : Cmds) (cfg : NewCfg) : List String :=
  (cmds.map Prod.fst).filter (fun n => decide (n ∉ cfg.map Prod.fst))

/-- The `added` set of a reload: new names absent from the current
Supervision Set (`updated_cmd_names.difference(&cur_cmd_names)`). -/
def addedNames (cmds : Cmds) (cfg : NewCfg) : List String :=
  (cfg.map Prod.fst).filter (fun n => decide (n ∉ cmds.map Prod.fst))

/-- The names acted on by the update loop: common names whose argv differs
between the current entry and the new configuration. -/
def changedNames (cmds : Cmds) (cfg : NewCfg) : List String :=
  (cmds.map Prod.fst).filter
    (fun n => decide (n ∈ cfg.map Prod.fst ∧ (findCmd? n cmds).map CmdSpec.argv ≠ lookupNew n cfg))

/-- The removal loop of the reload handler: `stop_process` for every
removed name. -/
def doRemoved (killO : String → Bool) : List String → Cmds →
    Option (Cmds × List KillRec × List LogMsg)
  | [], cmds => some (cmds, [], [])
  | n :: rest, cmds =>
    match stop_process (killO n) n cmds with
    | none => none
    | some (cmds1, k1, l1) =>
      match doRemoved killO rest cmds1 with
      | none => none
      | some (cmds2, k2, l2) => some (cmds2, k1 ++ k2, l1 ++ l2)

/-- The addition loop of the reload handler: `new_cmds.remove(n).unwrap()`
(a panic if absent, modelled as `none`), spawn, and on success insert the
entry and push the future. -/
def doAdded (spO : String → SpawnOutcome) (now : Nat) (cfg : NewCfg) :
    List String → Cmds → List Pending →
    Option (Cmds × List Pending × List SpawnRec × List LogMsg)
  | [], cmds, futs => some (cmds, futs, [], [])
  | n :: rest, cmds, futs =>
    match lookupNew n cfg with
    | none => none
    | some argv =>
      match get_cmd_future (spO n) n ⟨argv, none⟩ now with
      | .indexPanic => none
      | .ioError =>
        match doAdded spO now cfg rest cmds futs with
        | none => none
        | some (c2, f2, s2, l2) => some (c2, f2, ⟨n, argv, none⟩ :: s2, .spawnFailed n :: l2)
      | .spawned pid cmd fut =>
        match doAdded spO now cfg rest (insertCmd n cmd cmds) (futs ++ [fut]) with
        | none => none
        | some (c2, f2, s2, l2) => some (c2, f2, ⟨n, argv, some pid⟩ :: s2, .starting n :: l2)

/-- The update loop of the reload handler: for every changed name, take the
new spec out of the new configuration (`unwrap`), `stop_process` the
current one, then insert the new spec (with no pid).  Note the insert is
unconditional: it happens whether or not the stop signal was delivered. -/
def doChanged (killO : String → Bool) (cfg : NewCfg) : List String → Cmds →
    Option (Cmds × List KillRec × List LogMsg)
  | [], cmds => some (cmds, [], [])
  | n :: rest, cmds =>
    match lookupNew n cfg with
    | none => none
    | some argv =>
      match stop_process (killO n) n cmds with
      | none => none
      | some (cmds1, k1, l1) =>
        match doChanged killO cfg rest (insertCmd n ⟨argv, none⟩ cmds1) with
        | none => none
        | some (cmds2, k2, l2) => some (cmds2, k1 ++ k2, l1 ++ l2)

/-- The HUP branch of the event loop: on a read error, log and change
nothing; otherwise run the removal, addition and update loops in source
order, and report "no changes" when all three action sets were empty. -/
def handleReload (killO : String → Bool) (spO : String → SpawnOutcome) (now : Nat)
    (res : Except Unit NewCfg) (s : LoopState) : Option (LoopState × Effects) :=
  match res with
  | .error _ => some (s, ⟨[], [], [.configReadError]⟩)
  | .ok cfg =>
    match doRemoved killO (removedNames s.cmds cfg) s.cmds with
    | none => none
    | some (cmds1, k1, l1) =>
      match doAdded spO now cfg (addedNames s.cmds cfg) cmds1 s.futures with
      | none => none
      | some (cmds2, futs2, sp2, l2) =>
        match doChanged killO cfg (changedNames s.cmds cfg) cmds2 with
        | none => none
        | some (cmds3, k3, l3) =>
          some (⟨cmds3, futs2⟩,
            ⟨k1 ++ k3, sp2,
              l1 ++ l2 ++ l3 ++
                (if !((removedNames s.cmds cfg).isEmpty && (addedNames s.cmds cfg).isEmpty
                    && (changedNames s.cmds cfg).isEmpty) then [] else [.noChanges])⟩)

/-- The completion branch of the event loop: the resolved future leaves the
stream; the exit is classified and logged; if the name still has an entry,
the current spec is respawned (restart-forever), recording the new pid on
success and leaving the entry untouched on failure; with no entry the name
is retired. -/
def handleCompletion (spO : String → SpawnOutcome) (now : Nat) (c : CompletedCmd)
    (s : LoopState) : Option (LoopState × Effects) :=
  let futs := s.futures.erase ⟨c.name, c.startedAt⟩
  let exitLog := LogMsg.exited c.name c.exitCode (now - c.startedAt)
  match findCmd? c.name s.cmds with
  | some cmd =>
    match get_cmd_future (spO c.name) c.name cmd now with
    | .indexPanic => none
    | .ioError =>
      some (⟨s.cmds, futs⟩, ⟨[], [⟨c.name, cmd.argv, none⟩], [exitLog, .spawnFailed c.name]⟩)
    | .spawned pid cmd' fut =>
      some (⟨insertCmd c.name cmd' s.cmds, futs ++ [fut]⟩,
        ⟨[], [⟨c.name, cmd.argv, some pid⟩], [exitLog, .restarting c.name]⟩)
  | none => some (⟨s.cmds, futs⟩, ⟨[], [], [exitLog, .finalInvocation c.name]⟩)

/-- One event observed by the `select!` multiplexer.  Oracles for the OS
effects the handler will perform travel with the event. -/
inductive Ev where
  | hangup (res : Except Unit NewCfg) (killO : String → Bool) (spO : String → SpawnOutcome)
      (now : Nat)
  | complete (c : CompletedCmd) (spO : String → SpawnOutcome) (now : Nat)
  | completeErr (p : Pending)
  | streamNone

/-- Result of one loop iteration: continue with a new state, break out of
the loop (`All processes finished`), panic, or `invalid` for an event the
runtime cannot deliver in this state (a completion whose future is not in
the stream, or `next() = None` while futures remain). -/
inductive LoopOutcome where
  | next (s : LoopState) (eff : Effects)
  | exited (eff : Effects)
  | panicked
  | invalid
deriving DecidableEq, Repr

/-- One iteration of the event loop of `main`. -/
def iterate (e : Ev) (s : LoopState) : LoopOutcome :=
  match e with
  | .hangup res killO spO now =>
    match handleReload killO spO now res s with
    | none => .panicked
    | some (s', eff) => .next s' eff
  | .complete c spO now =>
    if (⟨c.name, c.startedAt⟩ : Pending) ∈ s.futures then
      match handleCompletion spO now c s with
      | none => .panicked
      | some (s', eff) => .next s' eff
    else .invalid
  | .completeErr p =>
    if p ∈ s.futures then .next ⟨s.cmds, s.futures.erase p⟩ ⟨[], [], [.completionError]⟩
    else .invalid
  | .streamNone =>
    if s.futures.isEmpty then .exited ⟨[], [], [.allFinished]⟩ else .invalid

/-- The startup sequence of `main`: the configuration becomes the
Supervision Set wholesale (`read_cmds` result), every entry is spawned, and
`only_ok` keeps only the successfully spawned futures, printing the error
(without a name) for the rest.  The entry itself stays in the map either
way; only its pid differs. -/
def startupGo (spO : String → SpawnOutcome) (now : Nat) :
    NewCfg → Option (Cmds × List Pending × Effects)
  | [] => some ([], [], ⟨[], [], []⟩)
  | (n, argv) :: rest =>
    match get_cmd_future (spO n) n ⟨argv, none⟩ now with
    | .indexPanic => none
    | .ioError =>
      match startupGo spO now rest with
      | none => none
      | some (c, f, eff) =>
        some ((n, ⟨argv, none⟩) :: c, f,
          ⟨eff.kills, ⟨n, argv, none⟩ :: eff.spawnCalls, .spawnErrorAnon :: eff.logs⟩)
    | .spawned pid cmd fut =>
      match startupGo spO now rest with
      | none => none
      | some (c, f, eff) =>
        some ((n, cmd) :: c, fut :: f,
          ⟨eff.kills, ⟨n, argv, some pid⟩ :: eff.spawnCalls, eff.logs⟩)

/-- Startup packaged as a `LoopState` plus its effects. -/
def startup (spO : String → SpawnOutcome) (now : Nat) (cfg : NewCfg) :
    Option (LoopState × Effects) :=
  match startupGo spO now cfg with
  | none => none
  | some (c, f, eff) => some (⟨c, f⟩, eff)

/-- Number of outstanding pending completions for a name. -/
def pendingCount (futs : List Pending) (n : String) : Nat :=
  (futs.filter (fun p => p.name == n)).length

/-- The spec's Entry invariant: `runningId` is present iff exactly one
pending completion is outstanding for the name. -/
def runningIdIffOnePending (s : LoopState) : Prop :=
  ∀ nc ∈ s.cmds, ((nc.2 : CmdSpec).pid.isSome = true ↔ pendingCount s.futures nc.1 = 1)

/-- Modelled from the spec: the external Config Source tokenizer (the
`shellwords` dependency of `get_argv_from_str`, not part of this
repository).  Splits a command string on spaces, double quotes group a
token and may make it empty, an unclosed quote is a load error
(`mismatched quotes`). -/
def swGo : List Char → List String → Option (List Char) → Bool → Except Unit (List String)
  | [], acc, none, false => .ok acc
  | [], acc, some t, false => .ok (acc ++ [String.mk t.reverse])
  | [], _, _, true => .error ()
  | c :: rest, acc, cur, true =>
    if c = '"' then swGo rest acc (some (cur.getD [])) false
    else swGo rest acc (some (c :: cur.getD [])) true
  | c :: rest, acc, cur, false =>
    if c = ' ' then
      match cur with
      | none => swGo rest acc none false
      | some t => swGo rest (acc ++ [String.mk t.reverse]) none false
    else if c = '"' then swGo rest acc (some (cur.getD [])) true
    else swGo rest acc (some (c :: cur.getD [])) false

/-- Modelled from the spec: `shellwords::split`, the shell-quoted
tokenization the config contract requires (`sleep 5` becomes
`["sleep", "5"]`, unbalanced quotes are a load error). -/
def shellwords_split (s : String) : Except Unit (List String) :=
  swGo s.data [] none false

/-! ### Basic lemmas about the map operations -/

theorem findCmd?_insertCmd_self (n : String) (c : CmdSpec) (l : Cmds) :
    findCmd? n (insertCmd n c l) = some c := by
  induction l with
  | nil => simp [insertCmd, findCmd?]
  | cons hd tl ih =>
    obtain ⟨m, c'⟩ := hd
    by_cases hm : m = n
    · simp [insertCmd, hm, findCmd?]
    · simp [insertCmd, hm, findCmd?, ih]

theorem findCmd?_insertCmd_ne {m n : String} (h : m ≠ n) (c : CmdSpec) (l : Cmds) :
    findCmd? m (insertCmd n c l) = findCmd? m l := by
  induction l with
  | nil => simp [insertCmd, findCmd?, Ne.symm h]
  | cons hd tl ih =>
    obtain ⟨k, c'⟩ := hd
    by_cases hk : k = n
    · subst hk
      simp [insertCmd, findCmd?, Ne.symm h]
    · simp [insertCmd, findCmd?, hk, ih]

theorem findCmd?_removeCmd_ne {m n : String} (h : m ≠ n) (l : Cmds) :
    findCmd? m (removeCmd n l) = findCmd? m l := by
  induction l with
  | nil => simp [removeCmd]
  | cons hd tl ih =>
    obtain ⟨k, c'⟩ := hd
    by_cases hk : k = n
    · subst hk
      simp [removeCmd, findCmd?, Ne.symm h]
    · simp [removeCmd, findCmd?, hk, ih]

theorem findCmd?_isSome_iff_mem {n : String} {l : Cmds} :
    (findCmd? n l).isSome = true ↔ n ∈ l.map Prod.fst := by
  induction l with
  | nil => simp [findCmd?]
  | cons hd tl ih =>
    obtain ⟨m, c⟩ := hd
    simp only [findCmd?, List.map_cons, List.mem_cons]
    by_cases hm : m = n
    · subst hm; simp
    · simp [hm, ih, Ne.symm hm]

theorem lookupNew_isSome_iff_mem {n : String} {cfg : NewCfg} :
    (lookupNew n cfg).isSome = true ↔ n ∈ cfg.map Prod.fst := by
  induction cfg with
  | nil => simp [lookupNew]
  | cons hd tl ih =>
    obtain ⟨m, a⟩ := hd
    simp only [lookupNew, List.map_cons, List.mem_cons]
    by_cases hm : m = n
    · subst hm; simp
    · simp [hm, ih, Ne.symm hm]

theorem findCmd?_eq_some_of_mem_nodup {n : String} {c : CmdSpec} {l : Cmds}
    (hnd : (l.map Prod.fst).Nodup) (h : (n, c) ∈ l) : findCmd? n l = some c := by
  induction l with
  | nil => cases h
  | cons hd tl ih =>
    obtain ⟨m, c'⟩ := hd
    simp only [List.map_cons, List.nodup_cons] at hnd
    rcases List.mem_cons.1 h with heq | htl
    · injection heq with h1 h2
      subst h1; subst h2
      simp [findCmd?]
    · have hm : m ≠ n := by
        rintro rfl
        exact hnd.1 (List.mem_map_of_mem Prod.fst htl)
      simp [findCmd?, hm, ih hnd.2 htl]

theorem mem_removedNames {n : String} {cmds : Cmds} {cfg : NewCfg} :
    n ∈ removedNames cmds cfg ↔ n ∈ cmds.map Prod.fst ∧ n ∉ cfg.map Prod.fst := by
  simp [removedNames, List.mem_filter]

theorem mem_addedNames {n : String} {cmds : Cmds} {cfg : NewCfg} :
    n ∈ addedNames cmds cfg ↔ n ∈ cfg.map Prod.fst ∧ n ∉ cmds.map Prod.fst := by
  simp [addedNames, List.mem_filter]

theorem mem_changedNames {n : String} {cmds : Cmds} {cfg : NewCfg} :
    n ∈ changedNames cmds cfg ↔
      n ∈ cmds.map Prod.fst ∧ n ∈ cfg.map Prod.fst ∧
        (findCmd? n cmds).map CmdSpec.argv ≠ lookupNew n cfg := by
  simp [changedNames, List.mem_filter, and_assoc]

theorem removedNames_nodup {cmds : Cmds} {cfg : NewCfg}
    (hnd : (cmds.map Prod.fst).Nodup) : (removedNames cmds cfg).Nodup :=
  hnd.filter _

theorem changedNames_nodup {cmds : Cmds} {cfg : NewCfg}
    (hnd : (cmds.map Prod.fst).Nodup) : (changedNames cmds cfg).Nodup :=
  hnd.filter _

/-! ### Lemmas about `stop_process` -/

theorem stop_process_elim {k : Bool} {n : String} {cmds cmds' : Cmds}
    {ks : List KillRec} {ls : List LogMsg}
    (h : stop_process k n cmds = some (cmds', ks, ls)) :
    ∃ cmd, findCmd? n cmds = some cmd ∧
      ((∃ pid, cmd.pid = some pid ∧
          ((k = true ∧ cmds' = removeCmd n cmds ∧ ks = [⟨n, pid, true⟩] ∧
              ls = [.stopping n pid])
            ∨ (k = false ∧ cmds' = cmds ∧ ks = [⟨n, pid, false⟩] ∧
              ls = [.signalError n])))
        ∨ (cmd.pid = none ∧ cmds' = cmds ∧ ks = [] ∧ ls = [.notRunning n])) := by
  unfold stop_process at h
  split at h
  · cases h
  · rename_i cmd hf
    refine ⟨cmd, hf, ?_⟩
    split at h
    · rename_i pid hp
      split at h
      · rename_i hk
        simp only [Option.some.injEq, Prod.mk.injEq] at h
        obtain ⟨rfl, rfl, rfl⟩ := h
        exact Or.inl ⟨pid, hp, Or.inl ⟨hk, rfl, rfl, rfl⟩⟩
      · rename_i hk
        simp only [Option.some.injEq, Prod.mk.injEq] at h
        obtain ⟨rfl, rfl, rfl⟩ := h
        exact Or.inl ⟨pid, hp, Or.inr ⟨by simpa using hk, rfl, rfl, rfl⟩⟩
    · rename_i hp
      simp only [Option.some.injEq, Prod.mk.injEq] at h
      obtain ⟨rfl, rfl, rfl⟩ := h
      exact Or.inr ⟨hp, rfl, rfl, rfl⟩

theorem stop_process_isSome {k : Bool} {n : String} {cmds : Cmds}
    (h : n ∈ cmds.map Prod.fst) : (stop_process k n cmds).isSome = true := by
  obtain ⟨cmd, hf⟩ := Option.isSome_iff_exists.1 (findCmd?_isSome_iff_mem.2 h)
  cases hp : cmd.pid with
  | none => simp [stop_process, hf, hp]
  | some pid => cases k <;> simp [stop_process, hf, hp]

theorem stop_process_preserve {k : Bool} {n m : String} {cmds cmds' : Cmds}
    {ks : List KillRec} {ls : List LogMsg}
    (h : stop_process k n cmds = some (cmds', ks, ls)) (hm : m ≠ n) :
    findCmd? m cmds' = findCmd? m cmds := by
  obtain ⟨cmd, _, ⟨pid, _, ⟨_, rfl, _, _⟩ | ⟨_, rfl, _, _⟩⟩ | ⟨_, rfl, _, _⟩⟩ :=
    stop_process_elim h
  · exact findCmd?_removeCmd_ne hm cmds
  · rfl
  · rfl

theorem stop_process_kills_name {k : Bool} {n : String} {cmds cmds' : Cmds}
    {ks : List KillRec} {ls : List LogMsg}
    (h : stop_process k n cmds = some (cmds', ks, ls)) :
    ∀ kr ∈ ks, kr.name = n := by
  obtain ⟨cmd, _, ⟨pid, _, ⟨_, _, rfl, _⟩ | ⟨_, _, rfl, _⟩⟩ | ⟨_, _, rfl, _⟩⟩ :=
    stop_process_elim h <;> simp

theorem stop_process_no_noChanges {k : Bool} {n : String} {cmds cmds' : Cmds}
    {ks : List KillRec} {ls : List LogMsg}
    (h : stop_process k n cmds = some (cmds', ks, ls)) :
    LogMsg.noChanges ∉ ls := by
  obtain ⟨cmd, _, ⟨pid, _, ⟨_, _, _, rfl⟩ | ⟨_, _, _, rfl⟩⟩ | ⟨_, _, _, rfl⟩⟩ :=
    stop_process_elim h <;> simp

/-! ### Elimination lemmas for the three reload loops -/

theorem doRemoved_cons_elim {killO : String → Bool} {n : String} {rest : List String}
    {cmds cmds' : Cmds} {ks : List KillRec} {ls : List LogMsg}
    (h : doRemoved killO (n :: rest) cmds = some (cmds', ks, ls)) :
    ∃ cmds1 k1 l1 k2 l2,
      stop_process (killO n) n cmds = some (cmds1, k1, l1) ∧
      doRemoved killO rest cmds1 = some (cmds', k2, l2) ∧
      ks = k1 ++ k2 ∧ ls = l1 ++ l2 := by
  simp only [doRemoved] at h
  split at h
  · cases h
  · rename_i cmds1 k1 l1 heq
    split at h
    · cases h
    · rename_i cmds2 k2 l2 heq2
      simp only [Option.some.injEq, Prod.mk.injEq] at h
      obtain ⟨rfl, rfl, rfl⟩ := h
      exact ⟨cmds1, k1, l1, k2, l2, heq, heq2, rfl, rfl⟩

theorem doRemoved_nil_elim {killO : String → Bool} {cmds cmds' : Cmds}
    {ks : List KillRec} {ls : List LogMsg}
    (h : doRemoved killO [] cmds = some (cmds', ks, ls)) :
    cmds' = cmds ∧ ks = [] ∧ ls = [] := by
  simp only [doRemoved, Option.some.injEq, Prod.mk.injEq] at h
  obtain ⟨rfl, rfl, rfl⟩ := h
  exact ⟨rfl, rfl, rfl⟩

theorem doChanged_cons_elim {killO : String → Bool} {cfg : NewCfg} {n : String}
    {rest : List String} {cmds cmds' : Cmds} {ks : List KillRec} {ls : List LogMsg}
    (h : doChanged killO cfg (n :: rest) cmds = some (cmds', ks, ls)) :
    ∃ argv cmds1 k1 l1 k2 l2,
      lookupNew n cfg = some argv ∧
      stop_process (killO n) n cmds = some (cmds1, k1, l1) ∧
      doChanged killO cfg rest (insertCmd n ⟨argv, none⟩ cmds1) = some (cmds', k2, l2) ∧
      ks = k1 ++ k2 ∧ ls = l1 ++ l2 := by
  simp only [doChanged] at h
  split at h
  · cases h
  · rename_i argv heq0
    split at h
    · cases h
    · rename_i cmds1 k1 l1 heq
      split at h
      · cases h
      · rename_i cmds2 k2 l2 heq2
        simp only [Option.some.injEq, Prod.mk.injEq] at h
        obtain ⟨rfl, rfl, rfl⟩ := h
        exact ⟨argv, cmds1, k1, l1, k2, l2, heq0, heq, heq2, rfl, rfl⟩

theorem doChanged_nil_elim {killO : String → Bool} {cfg : NewCfg} {cmds cmds' : Cmds}
    {ks : List KillRec} {ls : List LogMsg}
    (h : doChanged killO cfg [] cmds = some (cmds', ks, ls)) :
    cmds' = cmds ∧ ks = [] ∧ ls = [] := by
  simp only [doChanged, Option.some.injEq, Prod.mk.injEq] at h
  obtain ⟨rfl, rfl, rfl⟩ := h
  exact ⟨rfl, rfl, rfl⟩

theorem doAdded_cons_elim {spO : String → SpawnOutcome} {now : Nat} {cfg : NewCfg}
    {n : String} {rest : List String} {cmds cmds' : Cmds} {futs futs' : List Pending}
    {ss : List SpawnRec} {ls : List LogMsg}
    (h : doAdded spO now cfg (n :: rest) cmds futs = some (cmds', futs', ss, ls)) :
    ∃ argv, lookupNew n cfg = some argv ∧
      ((∃ s2 l2, get_cmd_future (spO n) n ⟨argv, none⟩ now = .ioError ∧
          doAdded spO now cfg rest cmds futs = some (cmds', futs', s2, l2) ∧
          ss = ⟨n, argv, none⟩ :: s2 ∧ ls = .spawnFailed n :: l2)
        ∨ (∃ pid cmd fut s2 l2,
          get_cmd_future (spO n) n ⟨argv, none⟩ now = .spawned pid cmd fut ∧
          doAdded spO now cfg rest (insertCmd n cmd cmds) (futs ++ [fut]) =
            some (cmds', futs', s2, l2) ∧
          ss = ⟨n, argv, some pid⟩ :: s2 ∧ ls = .starting n :: l2)) := by
  simp only [doAdded] at h
  split at h
  · cases h
  · rename_i argv heq0
    refine ⟨argv, heq0, ?_⟩
    split at h
    · cases h
    · rename_i heq
      split at h
      · cases h
      · rename_i c2 f2 s2 l2 heq2
        simp only [Option.some.injEq, Prod.mk.injEq] at h
        obtain ⟨rfl, rfl, rfl, rfl⟩ := h
        exact Or.inl ⟨s2, l2, heq, heq2, rfl, rfl⟩
    · rename_i pid cmd fut heq
      split at h
      · cases h
      · rename_i c2 f2 s2 l2 heq2
        simp only [Option.some.injEq, Prod.mk.injEq] at h
        obtain ⟨rfl, rfl, rfl, rfl⟩ := h
        exact Or.inr ⟨pid, cmd, fut, s2, l2, heq, heq2, rfl, rfl⟩

theorem doAdded_nil_elim {spO : String → SpawnOutcome} {now : Nat} {cfg : NewCfg}
    {cmds cmds' : Cmds} {futs futs' : List Pending} {ss : List SpawnRec} {ls : List LogMsg}
    (h : doAdded spO now cfg [] cmds futs = some (cmds', futs', ss, ls)) :
    cmds' = cmds ∧ futs' = futs ∧ ss = [] ∧ ls = [] := by
  simp only [doAdded, Option.some.injEq, Prod.mk.injEq] at h
  obtain ⟨rfl, rfl, rfl, rfl⟩ := h
  exact ⟨rfl, rfl, rfl, rfl⟩

/-! ### Frame and effect lemmas for the removal loop -/

theorem doRemoved_isSome (killO : String → Bool) {names : List String} :
    ∀ {cmds : Cmds}, names.Nodup → (∀ n ∈ names, n ∈ cmds.map Prod.fst) →
    (doRemoved killO names cmds).isSome = true := by
  induction names with
  | nil => intro cmds _ _; simp [doRemoved]
  | cons n rest ih =>
    intro cmds hnd hmem
    have hsp := stop_process_isSome (k := killO n) (hmem n (List.mem_cons_self n rest))
    obtain ⟨⟨cmds1, k1, l1⟩, heq⟩ := Option.isSome_iff_exists.1 hsp
    have hrest : ∀ m ∈ rest, m ∈ cmds1.map Prod.fst := by
      intro m hm
      have hne : m ≠ n := by
        rintro rfl; exact (List.nodup_cons.1 hnd).1 hm
      rw [← findCmd?_isSome_iff_mem, stop_process_preserve heq hne,
        findCmd?_isSome_iff_mem]
      exact hmem m (List.mem_cons_of_mem _ hm)
    obtain ⟨⟨cmds2, k2, l2⟩, heq2⟩ :=
      Option.isSome_iff_exists.1 (ih (List.nodup_cons.1 hnd).2 hrest)
    simp [doRemoved, heq, heq2]

theorem doRemoved_preserve {killO : String → Bool} {names : List String} {m : String} :
    ∀ {cmds cmds' : Cmds} {ks : List KillRec} {ls : List LogMsg},
    doRemoved killO names cmds = some (cmds', ks, ls) → m ∉ names →
    findCmd? m cmds' = findCmd? m cmds := by
  induction names with
  | nil =>
    intro cmds cmds' ks ls h _
    obtain ⟨rfl, -, -⟩ := doRemoved_nil_elim h
    rfl
  | cons n rest ih =>
    intro cmds cmds' ks ls h hm
    obtain ⟨cmds1, k1, l1, k2, l2, hsp, hrest, -, -⟩ := doRemoved_cons_elim h
    have hmn : m ≠ n := fun hh => hm (by rw [hh]; exact List.mem_cons_self n rest)
    have h1 := stop_process_preserve hsp hmn
    have h2 := ih hrest (fun hh => hm (List.mem_cons_of_mem _ hh))
    rw [h2, h1]

theorem doRemoved_kills_name {killO : String → Bool} {names : List String} :
    ∀ {cmds cmds' : Cmds} {ks : List KillRec} {ls : List LogMsg},
    doRemoved killO names cmds = some (cmds', ks, ls) →
    ∀ kr ∈ ks, kr.name ∈ names := by
  induction names with
  | nil =>
    intro _ _ _ _ h kr hkr
    obtain ⟨-, rfl, -⟩ := doRemoved_nil_elim h
    cases hkr
  | cons n rest ih =>
    intro cmds cmds' ks ls h kr hkr
    obtain ⟨cmds1, k1, l1, k2, l2, hsp, hrest, rfl, -⟩ := doRemoved_cons_elim h
    rcases List.mem_append.1 hkr with h1 | h2
    · exact (stop_process_kills_name hsp kr h1) ▸ List.mem_cons_self n rest
    · exact List.mem_cons_of_mem _ (ih hrest kr h2)

theorem doRemoved_no_noChanges {killO : String → Bool} {names : List String} :
    ∀ {cmds cmds' : Cmds} {ks : List KillRec} {ls : List LogMsg},
    doRemoved killO names cmds = some (cmds', ks, ls) →
    LogMsg.noChanges ∉ ls := by
  induction names with
  | nil =>
    intro _ _ _ _ h
    obtain ⟨-, -, rfl⟩ := doRemoved_nil_elim h
    simp
  | cons n rest ih =>
    intro cmds cmds' ks ls h
    obtain ⟨cmds1, k1, l1, k2, l2, hsp, hrest, -, rfl⟩ := doRemoved_cons_elim h
    intro hmem
    rcases List.mem_append.1 hmem with h1 | h2
    · exact stop_process_no_noChanges hsp h1
    · exact ih hrest h2

theorem doRemoved_kill_fail {killO : String → Bool} {names : List String} {n : String}
    {cmd : CmdSpec} {p : Int} :
    ∀ {cmds cmds' : Cmds} {ks : List KillRec} {ls : List LogMsg},
    names.Nodup → n ∈ names →
    findCmd? n cmds = some cmd → cmd.pid = some p → killO n = false →
    doRemoved killO names cmds = some (cmds', ks, ls) →
    findCmd? n cmds' = some cmd ∧ KillRec.mk n p false ∈ ks ∧
      LogMsg.signalError n ∈ ls := by
  induction names with
  | nil => intro _ _ _ _ _ hn; cases hn
  | cons m rest ih =>
    intro cmds cmds' ks ls hnd hn hf hp hk h
    obtain ⟨cmds1, k1, l1, k2, l2, hsp, hrest, rfl, rfl⟩ := doRemoved_cons_elim h
    rcases List.mem_cons.1 hn with rfl | hn'
    · obtain ⟨cmd0, hf0, hcases⟩ := stop_process_elim hsp
      rw [hf] at hf0
      injection hf0 with hc; subst hc
      rcases hcases with ⟨pid, hpid, ⟨hkt, -, -, -⟩ | ⟨-, rfl, rfl, rfl⟩⟩ | ⟨hpid, -, -, -⟩
      · rw [hk] at hkt; cases hkt
      · have hnr : n ∉ rest := (List.nodup_cons.1 hnd).1
        refine ⟨?_, ?_, ?_⟩
        · rw [doRemoved_preserve hrest hnr, hf]
        · rw [hp] at hpid; injection hpid with hpp; subst hpp
          exact List.mem_append.2 (Or.inl (List.mem_singleton.2 rfl))
        · exact List.mem_append.2 (Or.inl (List.mem_singleton.2 rfl))
      · rw [hp] at hpid; cases hpid
    · have hmn : m ≠ n := by
        rintro rfl; exact (List.nodup_cons.1 hnd).1 hn'
      have hf1 : findCmd? n cmds1 = some cmd := by
        rw [stop_process_preserve hsp (Ne.symm hmn), hf]
      obtain ⟨ha, hb, hc⟩ := ih (List.nodup_cons.1 hnd).2 hn' hf1 hp hk hrest
      exact ⟨ha, List.mem_append.2 (Or.inr hb), List.mem_append.2 (Or.inr hc)⟩

/-! ### Frame and effect lemmas for the update loop -/

theorem doChanged_isSome (killO : String → Bool) {cfg : NewCfg} {names : List String} :
    ∀ {cmds : Cmds}, names.Nodup → (∀ n ∈ names, n ∈ cmds.map Prod.fst) →
    (∀ n ∈ names, (lookupNew n cfg).isSome = true) →
    (doChanged killO cfg names cmds).isSome = true := by
  induction names with
  | nil => intro cmds _ _ _; simp [doChanged]
  | cons n rest ih =>
    intro cmds hnd hmem hlk
    obtain ⟨argv, ha⟩ :=
      Option.isSome_iff_exists.1 (hlk n (List.mem_cons_self n rest))
    have hsp := stop_process_isSome (k := killO n) (hmem n (List.mem_cons_self n rest))
    obtain ⟨⟨cmds1, k1, l1⟩, heq⟩ := Option.isSome_iff_exists.1 hsp
    have hrest : ∀ m ∈ rest, m ∈ (insertCmd n ⟨argv, none⟩ cmds1).map Prod.fst := by
      intro m hm
      have hne : m ≠ n := by
        rintro rfl; exact (List.nodup_cons.1 hnd).1 hm
      rw [← findCmd?_isSome_iff_mem, findCmd?_insertCmd_ne hne,
        stop_process_preserve heq hne, findCmd?_isSome_iff_mem]
      exact hmem m (List.mem_cons_of_mem _ hm)
    obtain ⟨⟨cmds2, k2, l2⟩, heq2⟩ := Option.isSome_iff_exists.1
      (ih (List.nodup_cons.1 hnd).2 hrest
        (fun m hm => hlk m (List.mem_cons_of_mem _ hm)))
    simp [doChanged, ha, heq, heq2]

theorem doChanged_preserve {killO : String → Bool} {cfg : NewCfg} {names : List String}
    {m : String} :
    ∀ {cmds cmds' : Cmds} {ks : List KillRec} {ls : List LogMsg},
    doChanged killO cfg names cmds = some (cmds', ks, ls) → m ∉ names →
    findCmd? m cmds' = findCmd? m cmds := by
  induction names with
  | nil =>
    intro cmds cmds' ks ls h _
    obtain ⟨rfl, -, -⟩ := doChanged_nil_elim h
    rfl
  | cons n rest ih =>
    intro cmds cmds' ks ls h hm
    obtain ⟨argv, cmds1, k1, l1, k2, l2, -, hsp, hrest, -, -⟩ := doChanged_cons_elim h
    have hmn : m ≠ n := fun hh => hm (by rw [hh]; exact List.mem_cons_self n rest)
    have h1 := stop_process_preserve hsp hmn
    have h2 := ih hrest (fun hh => hm (List.mem_cons_of_mem _ hh))
    rw [h2, findCmd?_insertCmd_ne hmn, h1]

theorem doChanged_kills_name {killO : String → Bool} {cfg : NewCfg} {names : List String} :
    ∀ {cmds cmds' : Cmds} {ks : List KillRec} {ls : List LogMsg},
    doChanged killO cfg names cmds = some (cmds', ks, ls) →
    ∀ kr ∈ ks, kr.name ∈ names := by
  induction names with
  | nil =>
    intro _ _ _ _ h kr hkr
    obtain ⟨-, rfl, -⟩ := doChanged_nil_elim h
    cases hkr
  | cons n rest ih =>
    intro cmds cmds' ks ls h kr hkr
    obtain ⟨argv, cmds1, k1, l1, k2, l2, -, hsp, hrest, rfl, -⟩ := doChanged_cons_elim h
    rcases List.mem_append.1 hkr with h1 | h2
    · exact (stop_process_kills_name hsp kr h1) ▸ List.mem_cons_self n rest
    · exact List.mem_cons_of_mem _ (ih hrest kr h2)

theorem doChanged_no_noChanges {killO : String → Bool} {cfg : NewCfg} {names : List String} :
    ∀ {cmds cmds' : Cmds} {ks : List KillRec} {ls : List LogMsg},
    doChanged killO cfg names cmds = some (cmds', ks, ls) →
    LogMsg.noChanges ∉ ls := by
  induction names with
  | nil =>
    intro _ _ _ _ h
    obtain ⟨-, -, rfl⟩ := doChanged_nil_elim h
    simp
  | cons n rest ih =>
    intro cmds cmds' ks ls h
    obtain ⟨argv, cmds1, k1, l1, k2, l2, -, hsp, hrest, -, rfl⟩ := doChanged_cons_elim h
    intro hmem
    rcases List.mem_append.1 hmem with h1 | h2
    · exact stop_process_no_noChanges hsp h1
    · exact ih hrest h2

theorem doChanged_hit {killO : String → Bool} {cfg : NewCfg} {names : List String}
    {n : String} {cmd : CmdSpec} {p : Int} {argvN : List String} :
    ∀ {cmds cmds' : Cmds} {ks : List KillRec} {ls : List LogMsg},
    names.Nodup → n ∈ names →
    findCmd? n cmds = some cmd → cmd.pid = some p → killO n = true →
    lookupNew n cfg = some argvN →
    doChanged killO cfg names cmds = some (cmds', ks, ls) →
    findCmd? n cmds' = some ⟨argvN, none⟩ ∧
      ks.filter (fun kr => kr.name == n) = [⟨n, p, true⟩] := by
  induction names with
  | nil => intro _ _ _ _ _ hn; cases hn
  | cons m rest ih =>
    intro cmds cmds' ks ls hnd hn hf hp hk hargv h
    obtain ⟨argv, cmds1, k1, l1, k2, l2, hlk, hsp, hrest, rfl, -⟩ := doChanged_cons_elim h
    rcases List.mem_cons.1 hn with rfl | hn'
    · rw [hargv] at hlk
      injection hlk with hav; subst hav
      obtain ⟨cmd0, hf0, hcases⟩ := stop_process_elim hsp
      rw [hf] at hf0
      injection hf0 with hc; subst hc
      rcases hcases with ⟨pid, hpid, ⟨-, rfl, rfl, -⟩ | ⟨hkf, -, -, -⟩⟩ | ⟨hpid, -, -, -⟩
      · have hnr : n ∉ rest := (List.nodup_cons.1 hnd).1
        rw [hp] at hpid; injection hpid with hpp; subst hpp
        constructor
        · rw [doChanged_preserve hrest hnr, findCmd?_insertCmd_self]
        · have hk2 : k2.filter (fun kr => kr.name == n) = [] := by
            rw [List.filter_eq_nil_iff]
            intro kr hkr
            have := doChanged_kills_name hrest kr hkr
            simp only [beq_iff_eq]
            rintro rfl
            exact hnr this
          simp [hk2]
      · rw [hk] at hkf; cases hkf
      · rw [hp] at hpid; cases hpid
    · have hmn : m ≠ n := by
        rintro rfl; exact (List.nodup_cons.1 hnd).1 hn'
      have hf1 : findCmd? n (insertCmd m ⟨argv, none⟩ cmds1) = some cmd := by
        rw [findCmd?_insertCmd_ne (Ne.symm hmn),
          stop_process_preserve hsp (Ne.symm hmn), hf]
      obtain ⟨ha, hb⟩ := ih (List.nodup_cons.1 hnd).2 hn' hf1 hp hk hargv hrest
      have hk1 : k1.filter (fun kr => kr.name == n) = [] := by
        rw [List.filter_eq_nil_iff]
        intro kr hkr
        have := stop_process_kills_name hsp kr hkr
        simp only [beq_iff_eq]
        rw [this]
        exact hmn
      refine ⟨ha, ?_⟩
      rw [List.filter_append, hk1, List.nil_append, hb]

theorem doChanged_hit_fail {killO : String → Bool} {cfg : NewCfg} {names : List String}
    {n : String} {cmd : CmdSpec} {p : Int} {argvN : List String} :
    ∀ {cmds cmds' : Cmds} {ks : List KillRec} {ls : List LogMsg},
    names.Nodup → n ∈ names →
    findCmd? n cmds = some cmd → cmd.pid = some p → killO n = false →
    lookupNew n cfg = some argvN →
    doChanged killO cfg names cmds = some (cmds', ks, ls) →
    findCmd? n cmds' = some ⟨argvN, none⟩ ∧ KillRec.mk n p false ∈ ks ∧
      LogMsg.signalError n ∈ ls := by
  induction names with
  | nil => intro _ _ _ _ _ hn; cases hn
  | cons m rest ih =>
    intro cmds cmds' ks ls hnd hn hf hp hk hargv h
    obtain ⟨argv, cmds1, k1, l1, k2, l2, hlk, hsp, hrest, rfl, rfl⟩ := doChanged_cons_elim h
    rcases List.mem_cons.1 hn with rfl | hn'
    · rw [hargv] at hlk
      injection hlk with hav; subst hav
      obtain ⟨cmd0, hf0, hcases⟩ := stop_process_elim hsp
      rw [hf] at hf0
      injection hf0 with hc; subst hc
      rcases hcases with ⟨pid, hpid, ⟨hkt, -, -, -⟩ | ⟨-, rfl, rfl, rfl⟩⟩ | ⟨hpid, -, -, -⟩
      · rw [hk] at hkt; cases hkt
      · have hnr : n ∉ rest := (List.nodup_cons.1 hnd).1
        rw [hp] at hpid; injection hpid with hpp; subst hpp
        refine ⟨?_, ?_, ?_⟩
        · rw [doChanged_preserve hrest hnr, findCmd?_insertCmd_self]
        · exact List.mem_append.2 (Or.inl (List.mem_singleton.2 rfl))
        · exact List.mem_append.2 (Or.inl (List.mem_singleton.2 rfl))
      · rw [hp] at hpid; cases hpid
    · have hmn : m ≠ n := by
        rintro rfl; exact (List.nodup_cons.1 hnd).1 hn'
      have hf1 : findCmd? n (insertCmd m ⟨argv, none⟩ cmds1) = some cmd := by
        rw [findCmd?_insertCmd_ne (Ne.symm hmn),
          stop_process_preserve hsp (Ne.symm hmn), hf]
      obtain ⟨ha, hb, hc⟩ :=
        ih (List.nodup_cons.1 hnd).2 hn' hf1 hp hk hargv hrest
      exact ⟨ha, List.mem_append.2 (Or.inr hb), List.mem_append.2 (Or.inr hc)⟩

/-! ### Frame and effect lemmas for the addition loop -/

theorem doAdded_isSome (spO : String → SpawnOutcome) (now : Nat) {cfg : NewCfg}
    {names : List String} :
    ∀ (cmds : Cmds) (futs : List Pending),
    (∀ n ∈ names, ∃ a, lookupNew n cfg = some a ∧ a ≠ []) →
    (doAdded spO now cfg names cmds futs).isSome = true := by
  induction names with
  | nil => intro _ _ _; simp [doAdded]
  | cons n rest ih =>
    intro cmds futs hmem
    obtain ⟨a, ha, hne⟩ := hmem n (List.mem_cons_self n rest)
    have hrest := fun m hm => hmem m (List.mem_cons_of_mem n hm)
    cases a with
    | nil => exact absurd rfl hne
    | cons a0 arest =>
      cases ho : spO n with
      | err =>
        obtain ⟨⟨c2, f2, s2, l2⟩, heq2⟩ :=
          Option.isSome_iff_exists.1 (ih cmds futs hrest)
        simp [doAdded, ha, get_cmd_future, ho, heq2]
      | ok pid =>
        obtain ⟨⟨c2, f2, s2, l2⟩, heq2⟩ := Option.isSome_iff_exists.1
          (ih (insertCmd n ⟨a0 :: arest, some pid⟩ cmds) (futs ++ [⟨n, now⟩]) hrest)
        simp [doAdded, ha, get_cmd_future, ho, heq2]

theorem doAdded_preserve {spO : String → SpawnOutcome} {now : Nat} {cfg : NewCfg}
    {names : List String} {m : String} :
    ∀ {cmds cmds' : Cmds} {futs futs' : List Pending} {ss : List SpawnRec}
      {ls : List LogMsg},
    doAdded spO now cfg names cmds futs = some (cmds', futs', ss, ls) → m ∉ names →
    findCmd? m cmds' = findCmd? m cmds := by
  induction names with
  | nil =>
    intro cmds cmds' futs futs' ss ls h _
    obtain ⟨rfl, -, -, -⟩ := doAdded_nil_elim h
    rfl
  | cons n rest ih =>
    intro cmds cmds' futs futs' ss ls h hm
    have hmn : m ≠ n := fun hh => hm (by rw [hh]; exact List.mem_cons_self n rest)
    have hmr : m ∉ rest := fun hh => hm (List.mem_cons_of_mem _ hh)
    obtain ⟨argv, -, ⟨s2, l2, -, hrest, -, -⟩ | ⟨pid, cmd, fut, s2, l2, -, hrest, -, -⟩⟩ :=
      doAdded_cons_elim h
    · exact ih hrest hmr
    · rw [ih hrest hmr, findCmd?_insertCmd_ne hmn]

theorem doAdded_spawn_name {spO : String → SpawnOutcome} {now : Nat} {cfg : NewCfg}
    {names : List String} :
    ∀ {cmds cmds' : Cmds} {futs futs' : List Pending} {ss : List SpawnRec}
      {ls : List LogMsg},
    doAdded spO now cfg names cmds futs = some (cmds', futs', ss, ls) →
    ∀ sr ∈ ss, sr.name ∈ names := by
  induction names with
  | nil =>
    intro _ _ _ _ _ _ h sr hsr
    obtain ⟨-, -, rfl, -⟩ := doAdded_nil_elim h
    cases hsr
  | cons n rest ih =>
    intro cmds cmds' futs futs' ss ls h sr hsr
    obtain ⟨argv, -, ⟨s2, l2, -, hrest, rfl, -⟩ | ⟨pid, cmd, fut, s2, l2, -, hrest, rfl, -⟩⟩ :=
      doAdded_cons_elim h <;>
    · rcases List.mem_cons.1 hsr with rfl | h2
      · exact List.mem_cons_self n rest
      · exact List.mem_cons_of_mem _ (ih hrest sr h2)

theorem doAdded_no_noChanges {spO : String → SpawnOutcome} {now : Nat} {cfg : NewCfg}
    {names : List String} :
    ∀ {cmds cmds' : Cmds} {futs futs' : List Pending} {ss : List SpawnRec}
      {ls : List LogMsg},
    doAdded spO now cfg names cmds futs = some (cmds', futs', ss, ls) →
    LogMsg.noChanges ∉ ls := by
  induction names with
  | nil =>
    intro _ _ _ _ _ _ h
    obtain ⟨-, -, -, rfl⟩ := doAdded_nil_elim h
    simp
  | cons n rest ih =>
    intro cmds cmds' futs futs' ss ls h
    obtain ⟨argv, -, ⟨s2, l2, -, hrest, -, rfl⟩ | ⟨pid, cmd, fut, s2, l2, -, hrest, -, rfl⟩⟩ :=
      doAdded_cons_elim h <;>
    · intro hmem
      rcases List.mem_cons.1 hmem with heq | h2
      · cases heq
      · exact ih hrest h2

/-! ### Decomposition of a successful reload -/

theorem handleReload_ok_elim {killO : String → Bool} {spO : String → SpawnOutcome}
    {now : Nat} {cfg : NewCfg} {s s1 : LoopState} {eff1 : Effects}
    (h : handleReload killO spO now (.ok cfg) s = some (s1, eff1)) :
    ∃ cmds1 k1 l1 cmds2 futs2 sp2 l2 cmds3 k3 l3,
      doRemoved killO (removedNames s.cmds cfg) s.cmds = some (cmds1, k1, l1) ∧
      doAdded spO now cfg (addedNames s.cmds cfg) cmds1 s.futures =
        some (cmds2, futs2, sp2, l2) ∧
      doChanged killO cfg (changedNames s.cmds cfg) cmds2 = some (cmds3, k3, l3) ∧
      s1 = ⟨cmds3, futs2⟩ ∧
      eff1 = ⟨k1 ++ k3, sp2,
        l1 ++ l2 ++ l3 ++
          (if !((removedNames s.cmds cfg).isEmpty && (addedNames s.cmds cfg).isEmpty
              && (changedNames s.cmds cfg).isEmpty) then [] else [.noChanges])⟩ := by
  simp only [handleReload] at h
  split at h
  · cases h
  · rename_i cmds1 k1 l1 heq1
    split at h
    · cases h
    · rename_i cmds2 futs2 sp2 l2 heq2
      split at h
      · cases h
      · rename_i cmds3 k3 l3 heq3
        simp only [Option.some.injEq, Prod.mk.injEq] at h
        obtain ⟨rfl, rfl⟩ := h
        exact ⟨cmds1, k1, l1, cmds2, futs2, sp2, l2, cmds3, k3, l3,
          heq1, heq2, heq3, rfl, rfl⟩

/-! ### Further helpers -/

theorem kills_filter_eq_nil {ks : List KillRec} {n : String}
    (h : ∀ kr ∈ ks, kr.name ≠ n) : ks.filter (fun kr => kr.name == n) = [] := by
  rw [List.filter_eq_nil_iff]
  intro kr hkr
  simp only [beq_iff_eq]
  exact h kr hkr

theorem spawns_filter_eq_nil {ss : List SpawnRec} {n : String}
    (h : ∀ sr ∈ ss, sr.name ≠ n) : ss.filter (fun sr => sr.name == n) = [] := by
  rw [List.filter_eq_nil_iff]
  intro sr hsr
  simp only [beq_iff_eq]
  exact h sr hsr

/-- A completion for a name whose entry is present, with a successful spawn
oracle: the entry is respawned with its current argv and the new pid is
recorded. -/
theorem handleCompletion_restart {spO : String → SpawnOutcome} {now : Nat}
    {c : CompletedCmd} {s s' : LoopState} {eff : Effects} {cmd : CmdSpec} {pid : Int}
    (hcur : findCmd? c.name s.cmds = some cmd)
    (ho : spO c.name = .ok pid)
    (h : handleCompletion spO now c s = some (s', eff)) :
    eff.spawnCalls = [⟨c.name, cmd.argv, some pid⟩] ∧
      s'.cmds = insertCmd c.name ⟨cmd.argv, some pid⟩ s.cmds ∧
      findCmd? c.name s'.cmds = some ⟨cmd.argv, some pid⟩ := by
  cases hargv : cmd.argv with
  | nil => simp [handleCompletion, hcur, ho, get_cmd_future, hargv] at h
  | cons a0 arest =>
    simp only [handleCompletion, hcur, ho, get_cmd_future, hargv,
      Option.some.injEq, Prod.mk.injEq] at h
    obtain ⟨rfl, rfl⟩ := h
    refine ⟨by simp [hargv], by simp [hargv], ?_⟩
    show findCmd? c.name (insertCmd c.name ⟨a0 :: arest, some pid⟩ s.cmds) =
      some ⟨a0 :: arest, some pid⟩
    exact findCmd?_insertCmd_self c.name ⟨a0 :: arest, some pid⟩ s.cmds

/-! ### The claims -/

/-- C6: on a reload trigger for which re-reading the configuration fails,
the error is logged and the Supervision Set and the active set are left
entirely unchanged: no entry is added, removed or modified, no signal is
sent and no process is spawned. -/
theorem C6_reload_config_error (killO : String → Bool) (spO : String → SpawnOutcome)
    (now : Nat) (s : LoopState) :
    handleReload killO spO now (.error ()) s = some (s, ⟨[], [], [.configReadError]⟩) :=
  rfl

/-- C7 (amended): the event loop terminates normally exactly when the
active set of outstanding completions is empty — that is the sole
normal-exit condition; the Supervision Set may still contain entries at
that point. -/
theorem C7_exit_iff_futures_empty (e : Ev) (s : LoopState) (eff : Effects)
    (h : iterate e s = .exited eff) :
    s.futures = [] ∧ eff = ⟨[], [], [.allFinished]⟩ := by
  cases e with
  | hangup res killO spO now =>
    simp only [iterate] at h
    split at h <;> cases h
  | complete c spO now =>
    simp only [iterate] at h
    split at h
    · split at h <;> cases h
    · cases h
  | completeErr p =>
    simp only [iterate] at h
    split at h <;> cases h
  | streamNone =>
    simp only [iterate] at h
    split at h
    · rename_i hemp
      injection h with h'
      exact ⟨List.isEmpty_iff.1 hemp, h'.symm⟩
    · cases h

/-- Witness for C7 (amended): an exiting iteration at the empty state. -/
theorem C7_exit_iff_futures_empty_witness :
    (⟨[], []⟩ : LoopState).futures = [] ∧
      (⟨[], [], [.allFinished]⟩ : Effects) = ⟨[], [], [.allFinished]⟩ :=
  C7_exit_iff_futures_empty .streamNone ⟨[], []⟩ ⟨[], [], [.allFinished]⟩ (by decide)

/-- C7 counterexample: after a startup whose only spawn fails, the active
set is empty, so the very next poll of the stream ends the loop — yet an
Entry (intent to run) is still present in the Supervision Set.  This
refutes the claim that the loop ends only once no Entry remains. -/
theorem C7_counterexample :
    startup (fun _ => .err) 0 [("a", ["x"])] =
      some (⟨[("a", ⟨["x"], none⟩)], []⟩,
        ⟨[], [⟨"a", ["x"], none⟩], [.spawnErrorAnon]⟩) ∧
      iterate .streamNone ⟨[("a", ⟨["x"], none⟩)], []⟩ =
        .exited ⟨[], [], [.allFinished]⟩ ∧
      (⟨[("a", ⟨["x"], none⟩)], []⟩ : LoopState).cmds ≠ [] := by
  refine ⟨by decide, by decide, by decide⟩

/-- C8: a configured command string that tokenizes to an empty argv (such
as the empty string) makes the launcher panic on the unguarded
`argv[0]` index instead of returning a spawn error. -/
theorem C8_empty_argv_panics (str : String) (argv : List String) (o : SpawnOutcome)
    (n : String) (pid0 : Option Int) (now : Nat)
    (htok : shellwords_split str = .ok argv) (hempty : argv = []) :
    get_cmd_future o n ⟨argv, pid0⟩ now = .indexPanic ∧
      get_cmd_future o n ⟨argv, pid0⟩ now ≠ .ioError := by
  subst hempty
  exact ⟨rfl, fun hh => SpawnRes.noConfusion hh⟩

/-- Witness for C8 at the empty command string. -/
theorem C8_empty_argv_panics_witness :
    get_cmd_future .err "c" ⟨[], none⟩ 0 = .indexPanic ∧
      get_cmd_future .err "c" ⟨[], none⟩ 0 ≠ .ioError :=
  C8_empty_argv_panics "" [] .err "c" none 0 rfl rfl

/-- C9: a completion whose restart spawn fails leaves the Supervision Set
untouched, so the entry keeps the pid of the process that just exited; a
later `stop_process` (removal or argv change) therefore signals that
stale pid. -/
theorem C9_failed_respawn_stale_pid (s : LoopState) (n : String) (t : Nat)
    (code : Option Int) (now : Nat) (spO : String → SpawnOutcome)
    (s1 : LoopState) (eff1 : Effects) (cmd : CmdSpec) (p : Int)
    (hcur : findCmd? n s.cmds = some cmd)
    (hpid : cmd.pid = some p)
    (hfail : spO n = .err)
    (hcomp : handleCompletion spO now ⟨n, t, code⟩ s = some (s1, eff1)) :
    s1.cmds = s.cmds ∧ findCmd? n s1.cmds = some cmd ∧
      eff1.spawnCalls = [⟨n, cmd.argv, none⟩] ∧
      stop_process true n s1.cmds =
        some (removeCmd n s1.cmds, [⟨n, p, true⟩], [.stopping n p]) ∧
      stop_process false n s1.cmds =
        some (s1.cmds, [⟨n, p, false⟩], [.signalError n]) := by
  cases hargv : cmd.argv with
  | nil => simp [handleCompletion, hcur, hfail, get_cmd_future, hargv] at hcomp
  | cons a0 arest =>
    simp only [handleCompletion, hcur, hfail, get_cmd_future, hargv,
      Option.some.injEq, Prod.mk.injEq] at hcomp
    obtain ⟨rfl, rfl⟩ := hcomp
    refine ⟨rfl, hcur, by simp [hargv], ?_, ?_⟩
    · show stop_process true n s.cmds = _
      simp [stop_process, hcur, hpid]
    · show stop_process false n s.cmds = _
      simp [stop_process, hcur, hpid]

/-- Witness for C9: a one-entry state whose restart spawn fails after its
process exits. -/
theorem C9_failed_respawn_stale_pid_witness :
    (⟨[("a", ⟨["x"], some 5⟩)], []⟩ : LoopState).cmds =
        (⟨[("a", ⟨["x"], some 5⟩)], [⟨"a", 0⟩]⟩ : LoopState).cmds ∧
      findCmd? "a" (⟨[("a", ⟨["x"], some 5⟩)], []⟩ : LoopState).cmds =
        some ⟨["x"], some 5⟩ ∧
      (⟨[], [⟨"a", ["x"], none⟩],
          [.exited "a" (some 1) 3, .spawnFailed "a"]⟩ : Effects).spawnCalls =
        [⟨"a", (⟨["x"], some 5⟩ : CmdSpec).argv, none⟩] ∧
      stop_process true "a" (⟨[("a", ⟨["x"], some 5⟩)], []⟩ : LoopState).cmds =
        some (removeCmd "a" (⟨[("a", ⟨["x"], some 5⟩)], []⟩ : LoopState).cmds,
          [⟨"a", 5, true⟩], [.stopping "a" 5]) ∧
      stop_process false "a" (⟨[("a", ⟨["x"], some 5⟩)], []⟩ : LoopState).cmds =
        some ((⟨[("a", ⟨["x"], some 5⟩)], []⟩ : LoopState).cmds,
          [⟨"a", 5, false⟩], [.signalError "a"]) :=
  C9_failed_respawn_stale_pid ⟨[("a", ⟨["x"], some 5⟩)], [⟨"a", 0⟩]⟩ "a" 0 (some 1) 3
    (fun _ => .err) ⟨[("a", ⟨["x"], some 5⟩)], []⟩
    ⟨[], [⟨"a", ["x"], none⟩], [.exited "a" (some 1) 3, .spawnFailed "a"]⟩
    ⟨["x"], some 5⟩ 5 (by decide) (by decide) (by decide) (by decide)

/-- C10: the removed and changed sets are subsets of the current name set,
so the unguarded `cmds.get(name).unwrap()` inside `stop_process` never
panics during reconciliation: given unique keys and no empty argv among
the added entries, the whole reload handler cannot panic. -/
theorem C10_stop_process_safe (s : LoopState) (cfg : NewCfg)
    (killO : String → Bool) (spO : String → SpawnOutcome) (now : Nat)
    (hnodup : (s.cmds.map Prod.fst).Nodup)
    (hargv : ∀ n ∈ addedNames s.cmds cfg, lookupNew n cfg ≠ some []) :
    removedNames s.cmds cfg ⊆ s.cmds.map Prod.fst ∧
      changedNames s.cmds cfg ⊆ s.cmds.map Prod.fst ∧
      handleReload killO spO now (.ok cfg) s ≠ none := by
  refine ⟨fun n hn => (mem_removedNames.1 hn).1,
    fun n hn => (mem_changedNames.1 hn).1, ?_⟩
  have hr : ∀ n ∈ removedNames s.cmds cfg, n ∈ s.cmds.map Prod.fst :=
    fun n hn => (mem_removedNames.1 hn).1
  have ha : ∀ n ∈ addedNames s.cmds cfg, ∃ a, lookupNew n cfg = some a ∧ a ≠ [] := by
    intro n hn
    obtain ⟨a, haa⟩ := Option.isSome_iff_exists.1
      (lookupNew_isSome_iff_mem.2 (mem_addedNames.1 hn).1)
    refine ⟨a, haa, ?_⟩
    rintro rfl
    exact hargv n hn haa
  obtain ⟨⟨cmds1, k1, l1⟩, h1⟩ := Option.isSome_iff_exists.1
    (doRemoved_isSome killO (removedNames_nodup hnodup) hr)
  obtain ⟨⟨cmds2, futs2, sp2, l2⟩, h2⟩ := Option.isSome_iff_exists.1
    (doAdded_isSome spO now cmds1 s.futures ha)
  have hc : ∀ n ∈ changedNames s.cmds cfg, n ∈ cmds2.map Prod.fst := by
    intro n hn
    have h3 := mem_changedNames.1 hn
    have hnRem : n ∉ removedNames s.cmds cfg :=
      fun hh => (mem_removedNames.1 hh).2 h3.2.1
    have hnAdd : n ∉ addedNames s.cmds cfg :=
      fun hh => (mem_addedNames.1 hh).2 h3.1
    rw [← findCmd?_isSome_iff_mem, doAdded_preserve h2 hnAdd,
      doRemoved_preserve h1 hnRem, findCmd?_isSome_iff_mem]
    exact h3.1
  have hlk : ∀ n ∈ changedNames s.cmds cfg, (lookupNew n cfg).isSome = true :=
    fun n hn => lookupNew_isSome_iff_mem.2 (mem_changedNames.1 hn).2.1
  obtain ⟨⟨cmds3, k3, l3⟩, h3⟩ := Option.isSome_iff_exists.1
    (doChanged_isSome killO (changedNames_nodup hnodup) hc hlk)
  simp [handleReload, h1, h2, h3]

/-- Witness for C10 at a one-entry set and a disjoint one-entry config. -/
theorem C10_stop_process_safe_witness :
    removedNames [("a", ⟨["x"], some 1⟩)] [("b", ["y"])] ⊆
        ([("a", (⟨["x"], some 1⟩ : CmdSpec))].map Prod.fst) ∧
      changedNames [("a", ⟨["x"], some 1⟩)] [("b", ["y"])] ⊆
        ([("a", (⟨["x"], some 1⟩ : CmdSpec))].map Prod.fst) ∧
      handleReload (fun _ => true) (fun _ => .ok 9) 3 (.ok [("b", ["y"])])
        ⟨[("a", ⟨["x"], some 1⟩)], [⟨"a", 0⟩]⟩ ≠ none :=
  C10_stop_process_safe ⟨[("a", ⟨["x"], some 1⟩)], [⟨"a", 0⟩]⟩ [("b", ["y"])]
    (fun _ => true) (fun _ => .ok 9) 3 (by decide) (by decide)

/-- C1: an argv change for a present name with a delivered stop signal
sends exactly one stop signal to the old pid, performs no spawn for that
name during the reload, replaces the entry's spec with the new argv, and
the next completion for the name respawns with the new argv; a further
completion (configuration unchanged) respawns with the same new argv. -/
theorem C1_update_protocol
    (s s1 s2 s3 : LoopState) (eff1 eff2 eff3 : Effects) (cfg : NewCfg)
    (n : String) (argvOld argvNew : List String) (p : Int)
    (killO : String → Bool) (spO spO2 spO3 : String → SpawnOutcome)
    (now now2 now3 t2 t3 : Nat) (code2 code3 : Option Int) (pid2 pid3 : Int)
    (hnodup : (s.cmds.map Prod.fst).Nodup)
    (hcur : findCmd? n s.cmds = some ⟨argvOld, some p⟩)
    (hnew : lookupNew n cfg = some argvNew)
    (hne : argvNew ≠ argvOld)
    (hkill : killO n = true)
    (hrel : handleReload killO spO now (.ok cfg) s = some (s1, eff1))
    (ho2 : spO2 n = .ok pid2)
    (hcomp2 : handleCompletion spO2 now2 ⟨n, t2, code2⟩ s1 = some (s2, eff2))
    (ho3 : spO3 n = .ok pid3)
    (hcomp3 : handleCompletion spO3 now3 ⟨n, t3, code3⟩ s2 = some (s3, eff3)) :
    eff1.kills.filter (fun kr => kr.name == n) = [⟨n, p, true⟩] ∧
      eff1.spawnCalls.filter (fun sr => sr.name == n) = [] ∧
      findCmd? n s1.cmds = some ⟨argvNew, none⟩ ∧
      eff2.spawnCalls = [⟨n, argvNew, some pid2⟩] ∧
      findCmd? n s2.cmds = some ⟨argvNew, some pid2⟩ ∧
      eff3.spawnCalls = [⟨n, argvNew, some pid3⟩] ∧
      findCmd? n s3.cmds = some ⟨argvNew, some pid3⟩ := by
  obtain ⟨cmds1, k1, l1, cmds2, futs2, sp2, l2, cmds3, k3, l3, hdr, hda, hdc, rfl, rfl⟩ :=
    handleReload_ok_elim hrel
  have hmemCur : n ∈ s.cmds.map Prod.fst :=
    findCmd?_isSome_iff_mem.1 (by rw [hcur]; rfl)
  have hmemNew : n ∈ cfg.map Prod.fst :=
    lookupNew_isSome_iff_mem.1 (by rw [hnew]; rfl)
  have hnRem : n ∉ removedNames s.cmds cfg :=
    fun hh => (mem_removedNames.1 hh).2 hmemNew
  have hnAdd : n ∉ addedNames s.cmds cfg :=
    fun hh => (mem_addedNames.1 hh).2 hmemCur
  have hnChg : n ∈ changedNames s.cmds cfg := by
    refine mem_changedNames.2 ⟨hmemCur, hmemNew, ?_⟩
    rw [hcur, hnew]
    intro hh
    exact hne (by simpa using hh.symm)
  have hf1 : findCmd? n cmds1 = some ⟨argvOld, some p⟩ := by
    rw [doRemoved_preserve hdr hnRem, hcur]
  have hf2 : findCmd? n cmds2 = some ⟨argvOld, some p⟩ := by
    rw [doAdded_preserve hda hnAdd, hf1]
  obtain ⟨hf3, hkfil⟩ :=
    doChanged_hit (changedNames_nodup hnodup) hnChg hf2 rfl hkill hnew hdc
  have hk1 : k1.filter (fun kr => kr.name == n) = [] := by
    apply kills_filter_eq_nil
    intro kr hkr heq
    exact hnRem (heq ▸ doRemoved_kills_name hdr kr hkr)
  have hsp2 : sp2.filter (fun sr => sr.name == n) = [] := by
    apply spawns_filter_eq_nil
    intro sr hsr heq
    exact hnAdd (heq ▸ doAdded_spawn_name hda sr hsr)
  have hstep2 := handleCompletion_restart (c := ⟨n, t2, code2⟩) hf3 ho2 hcomp2
  have hstep3 := handleCompletion_restart (c := ⟨n, t3, code3⟩) hstep2.2.2 ho3 hcomp3
  refine ⟨?_, ?_, hf3, hstep2.1, hstep2.2.2, hstep3.1, hstep3.2.2⟩
  · show (k1 ++ k3).filter (fun kr => kr.name == n) = [⟨n, p, true⟩]
    rw [List.filter_append, hk1, List.nil_append, hkfil]
  · exact hsp2

/-- Witness for C1: the full update protocol at a concrete one-entry
state, through a reload and two subsequent completions. -/
theorem C1_update_protocol_witness :
    (⟨[⟨"n", 5, true⟩], [], [.stopping "n" 5]⟩ : Effects).kills.filter
        (fun kr => kr.name == "n") = [⟨"n", 5, true⟩] ∧
      (⟨[⟨"n", 5, true⟩], [], [.stopping "n" 5]⟩ : Effects).spawnCalls.filter
        (fun sr => sr.name == "n") = [] ∧
      findCmd? "n" (⟨[("n", ⟨["w"], none⟩)], [⟨"n", 0⟩]⟩ : LoopState).cmds =
        some ⟨["w"], none⟩ ∧
      (⟨[], [⟨"n", ["w"], some 6⟩],
          [.exited "n" (some 0) 2, .restarting "n"]⟩ : Effects).spawnCalls =
        [⟨"n", ["w"], some 6⟩] ∧
      findCmd? "n" (⟨[("n", ⟨["w"], some 6⟩)], [⟨"n", 2⟩]⟩ : LoopState).cmds =
        some ⟨["w"], some 6⟩ ∧
      (⟨[], [⟨"n", ["w"], some 8⟩],
          [.exited "n" (some 0) 2, .restarting "n"]⟩ : Effects).spawnCalls =
        [⟨"n", ["w"], some 8⟩] ∧
      findCmd? "n" (⟨[("n", ⟨["w"], some 8⟩)], [⟨"n", 4⟩]⟩ : LoopState).cmds =
        some ⟨["w"], some 8⟩ :=
  C1_update_protocol
    ⟨[("n", ⟨["o"], some 5⟩)], [⟨"n", 0⟩]⟩
    ⟨[("n", ⟨["w"], none⟩)], [⟨"n", 0⟩]⟩
    ⟨[("n", ⟨["w"], some 6⟩)], [⟨"n", 2⟩]⟩
    ⟨[("n", ⟨["w"], some 8⟩)], [⟨"n", 4⟩]⟩
    ⟨[⟨"n", 5, true⟩], [], [.stopping "n" 5]⟩
    ⟨[], [⟨"n", ["w"], some 6⟩], [.exited "n" (some 0) 2, .restarting "n"]⟩
    ⟨[], [⟨"n", ["w"], some 8⟩], [.exited "n" (some 0) 2, .restarting "n"]⟩
    [("n", ["w"])] "n" ["o"] ["w"] 5
    (fun _ => true) (fun _ => .err) (fun _ => .ok 6) (fun _ => .ok 8)
    1 2 4 0 2 (some 0) (some 0) 6 8
    (by decide) (by decide) (by decide) (by decide) (by decide) (by decide)
    (by decide) (by decide) (by decide) (by decide)

/-- C3 (amended): when the stop signal fails during reconciliation, the
failure is logged; a removal leaves the entry exactly as it was, but an
argv change still replaces the entry's spec with the new argv and clears
its pid (the insert is unconditional) — only the entry's presence is
preserved. -/
theorem C3_signal_failure
    (sA : LoopState) (cfgA : NewCfg) (killA : String → Bool) (spA : String → SpawnOutcome)
    (nowA : Nat) (s1A : LoopState) (effA : Effects) (nA : String) (cmdA : CmdSpec) (pA : Int)
    (sB : LoopState) (cfgB : NewCfg) (killB : String → Bool) (spB : String → SpawnOutcome)
    (nowB : Nat) (s1B : LoopState) (effB : Effects) (nB : String)
    (argvOldB argvNewB : List String) (pB : Int)
    (hnodupA : (sA.cmds.map Prod.fst).Nodup)
    (hcurA : findCmd? nA sA.cmds = some cmdA)
    (hpidA : cmdA.pid = some pA)
    (hremA : nA ∉ cfgA.map Prod.fst)
    (hkillA : killA nA = false)
    (hrelA : handleReload killA spA nowA (.ok cfgA) sA = some (s1A, effA))
    (hnodupB : (sB.cmds.map Prod.fst).Nodup)
    (hcurB : findCmd? nB sB.cmds = some ⟨argvOldB, some pB⟩)
    (hnewB : lookupNew nB cfgB = some argvNewB)
    (hneB : argvNewB ≠ argvOldB)
    (hkillB : killB nB = false)
    (hrelB : handleReload killB spB nowB (.ok cfgB) sB = some (s1B, effB)) :
    (findCmd? nA s1A.cmds = some cmdA ∧ KillRec.mk nA pA false ∈ effA.kills ∧
        LogMsg.signalError nA ∈ effA.logs) ∧
      (findCmd? nB s1B.cmds = some ⟨argvNewB, none⟩ ∧
        KillRec.mk nB pB false ∈ effB.kills ∧
        LogMsg.signalError nB ∈ effB.logs) := by
  constructor
  · obtain ⟨cmds1, k1, l1, cmds2, futs2, sp2, l2, cmds3, k3, l3, hdr, hda, hdc, rfl, rfl⟩ :=
      handleReload_ok_elim hrelA
    have hmemCur : nA ∈ sA.cmds.map Prod.fst :=
      findCmd?_isSome_iff_mem.1 (by rw [hcurA]; rfl)
    have hnRem : nA ∈ removedNames sA.cmds cfgA :=
      mem_removedNames.2 ⟨hmemCur, hremA⟩
    have hnAdd : nA ∉ addedNames sA.cmds cfgA :=
      fun hh => (mem_addedNames.1 hh).2 hmemCur
    have hnChg : nA ∉ changedNames sA.cmds cfgA :=
      fun hh => hremA (mem_changedNames.1 hh).2.1
    obtain ⟨hf1, hkmem, hlmem⟩ :=
      doRemoved_kill_fail (removedNames_nodup hnodupA) hnRem hcurA hpidA hkillA hdr
    refine ⟨?_, ?_, ?_⟩
    · show findCmd? nA cmds3 = some cmdA
      rw [doChanged_preserve hdc hnChg, doAdded_preserve hda hnAdd, hf1]
    · exact List.mem_append.2 (Or.inl hkmem)
    · exact List.mem_append.2 (Or.inl (List.mem_append.2 (Or.inl
        (List.mem_append.2 (Or.inl hlmem)))))
  · obtain ⟨cmds1, k1, l1, cmds2, futs2, sp2, l2, cmds3, k3, l3, hdr, hda, hdc, rfl, rfl⟩ :=
      handleReload_ok_elim hrelB
    have hmemCur : nB ∈ sB.cmds.map Prod.fst :=
      findCmd?_isSome_iff_mem.1 (by rw [hcurB]; rfl)
    have hmemNew : nB ∈ cfgB.map Prod.fst :=
      lookupNew_isSome_iff_mem.1 (by rw [hnewB]; rfl)
    have hnRem : nB ∉ removedNames sB.cmds cfgB :=
      fun hh => (mem_removedNames.1 hh).2 hmemNew
    have hnAdd : nB ∉ addedNames sB.cmds cfgB :=
      fun hh => (mem_addedNames.1 hh).2 hmemCur
    have hnChg : nB ∈ changedNames sB.cmds cfgB := by
      refine mem_changedNames.2 ⟨hmemCur, hmemNew, ?_⟩
      rw [hcurB, hnewB]
      intro hh
      exact hneB (by simpa using hh.symm)
    have hf1 : findCmd? nB cmds1 = some ⟨argvOldB, some pB⟩ := by
      rw [doRemoved_preserve hdr hnRem, hcurB]
    have hf2 : findCmd? nB cmds2 = some ⟨argvOldB, some pB⟩ := by
      rw [doAdded_preserve hda hnAdd, hf1]
    obtain ⟨hf3, hkmem, hlmem⟩ :=
      doChanged_hit_fail (changedNames_nodup hnodupB) hnChg hf2 rfl hkillB hnewB hdc
    exact ⟨hf3, List.mem_append.2 (Or.inr hkmem),
      List.mem_append.2 (Or.inl (List.mem_append.2 (Or.inr hlmem)))⟩

/-- Witness for C3 (amended): a failed removal signal for `r` and a failed
change signal for `n`, both at concrete one-entry states. -/
theorem C3_signal_failure_witness :
    (findCmd? "r" (⟨[("r", ⟨["x"], some 9⟩)], [⟨"r", 0⟩]⟩ : LoopState).cmds =
        some ⟨["x"], some 9⟩ ∧
      KillRec.mk "r" 9 false ∈
        (⟨[⟨"r", 9, false⟩], [], [.signalError "r"]⟩ : Effects).kills ∧
      LogMsg.signalError "r" ∈
        (⟨[⟨"r", 9, false⟩], [], [.signalError "r"]⟩ : Effects).logs) ∧
      (findCmd? "n" (⟨[("n", ⟨["w"], none⟩)], [⟨"n", 0⟩]⟩ : LoopState).cmds =
        some ⟨["w"], none⟩ ∧
      KillRec.mk "n" 5 false ∈
        (⟨[⟨"n", 5, false⟩], [], [.signalError "n"]⟩ : Effects).kills ∧
      LogMsg.signalError "n" ∈
        (⟨[⟨"n", 5, false⟩], [], [.signalError "n"]⟩ : Effects).logs) :=
  C3_signal_failure
    ⟨[("r", ⟨["x"], some 9⟩)], [⟨"r", 0⟩]⟩ [] (fun _ => false) (fun _ => .err) 1
    ⟨[("r", ⟨["x"], some 9⟩)], [⟨"r", 0⟩]⟩
    ⟨[⟨"r", 9, false⟩], [], [.signalError "r"]⟩ "r" ⟨["x"], some 9⟩ 9
    ⟨[("n", ⟨["o"], some 5⟩)], [⟨"n", 0⟩]⟩ [("n", ["w"])] (fun _ => false)
    (fun _ => .err) 1
    ⟨[("n", ⟨["w"], none⟩)], [⟨"n", 0⟩]⟩
    ⟨[⟨"n", 5, false⟩], [], [.signalError "n"]⟩ "n" ["o"] ["w"] 5
    (by decide) (by decide) (by decide) (by decide) (by decide) (by decide)
    (by decide) (by decide) (by decide) (by decide) (by decide) (by decide)

/-- C3 counterexample: an argv change whose stop signal fails does NOT
leave the entry as it was — the spec is replaced with the new argv and the
pid is cleared, refuting "the Entry is left exactly as it was before the
action" for the argv-change case. -/
theorem C3_counterexample :
    handleReload (fun _ => false) (fun _ => .err) 1 (.ok [("n", ["w"])])
        ⟨[("n", ⟨["o"], some 5⟩)], [⟨"n", 0⟩]⟩ =
      some (⟨[("n", ⟨["w"], none⟩)], [⟨"n", 0⟩]⟩,
        ⟨[⟨"n", 5, false⟩], [], [.signalError "n"]⟩) ∧
      findCmd? "n" [("n", (⟨["w"], none⟩ : CmdSpec))] ≠ some ⟨["o"], some 5⟩ :=
  ⟨by decide, by decide⟩

/-- C5: reloading a configuration identical to the current Supervision Set
(same names, same argv) performs zero signal sends and zero spawns, leaves
the state unchanged and reports "no changes"; conversely, any reload that
reports "no changes" had empty removed, added and changed sets. -/
theorem C5_noop_reload (s : LoopState) (cfg : NewCfg)
    (killO : String → Bool) (spO : String → SpawnOutcome) (now : Nat)
    (cfg2 : NewCfg) (k2 : String → Bool) (o2 : String → SpawnOutcome) (t2 : Nat)
    (s2 : LoopState) (e2 : Effects)
    (hkeys : ∀ n, n ∈ s.cmds.map Prod.fst ↔ n ∈ cfg.map Prod.fst)
    (hargv : ∀ n c, findCmd? n s.cmds = some c → lookupNew n cfg = some c.argv)
    (hrel2 : handleReload k2 o2 t2 (.ok cfg2) s = some (s2, e2))
    (hnc : LogMsg.noChanges ∈ e2.logs) :
    handleReload killO spO now (.ok cfg) s = some (s, ⟨[], [], [.noChanges]⟩) ∧
      removedNames s.cmds cfg2 = [] ∧ addedNames s.cmds cfg2 = [] ∧
      changedNames s.cmds cfg2 = [] := by
  have hrem : removedNames s.cmds cfg = [] := by
    rw [removedNames, List.filter_eq_nil_iff]
    intro n hn
    simp only [decide_eq_true_eq]
    exact not_not_intro ((hkeys n).1 hn)
  have hadd : addedNames s.cmds cfg = [] := by
    rw [addedNames, List.filter_eq_nil_iff]
    intro n hn
    simp only [decide_eq_true_eq]
    exact not_not_intro ((hkeys n).2 hn)
  have hchg : changedNames s.cmds cfg = [] := by
    rw [changedNames, List.filter_eq_nil_iff]
    intro n hn
    simp only [decide_eq_true_eq, not_and, not_not]
    intro hmem
    obtain ⟨c, hc⟩ := Option.isSome_iff_exists.1 (findCmd?_isSome_iff_mem.2 hn)
    rw [hc, hargv n c hc]
    simp
  refine ⟨?_, ?_⟩
  · simp [handleReload, hrem, hadd, hchg, doRemoved, doAdded, doChanged]
  · obtain ⟨cmds1, k1, l1, cmds2, futs2, sp2, l2, cmds3, k3, l3, hdr, hda, hdc, rfl, heff⟩ :=
      handleReload_ok_elim hrel2
    rw [heff] at hnc
    simp only at hnc
    have h1 := doRemoved_no_noChanges hdr
    have h2 := doAdded_no_noChanges hda
    have h3 := doChanged_no_noChanges hdc
    have htail : LogMsg.noChanges ∈
        (if !((removedNames s.cmds cfg2).isEmpty && (addedNames s.cmds cfg2).isEmpty
            && (changedNames s.cmds cfg2).isEmpty) then ([] : List LogMsg)
          else [.noChanges]) := by
      rcases List.mem_append.1 hnc with h123 | htail0
      · rcases List.mem_append.1 h123 with h12 | hc
        · rcases List.mem_append.1 h12 with ha | hb
          · exact absurd ha h1
          · exact absurd hb h2
        · exact absurd hc h3
      · exact htail0
    by_cases hcond : ((removedNames s.cmds cfg2).isEmpty &&
        (addedNames s.cmds cfg2).isEmpty && (changedNames s.cmds cfg2).isEmpty) = true
    · obtain ⟨hab, hcc⟩ := Bool.and_eq_true_iff.1 hcond
      obtain ⟨haa, hbb⟩ := Bool.and_eq_true_iff.1 hab
      exact ⟨List.isEmpty_iff.1 haa, List.isEmpty_iff.1 hbb, List.isEmpty_iff.1 hcc⟩
    · rw [if_pos (by simp [hcond])] at htail
      cases htail

/-- Witness for C5: a no-op reload of a one-entry configuration. -/
theorem C5_noop_reload_witness :
    handleReload (fun _ => true) (fun _ => .ok 2) 7 (.ok [("a", ["x"])])
        ⟨[("a", ⟨["x"], some 1⟩)], [⟨"a", 0⟩]⟩ =
      some (⟨[("a", ⟨["x"], some 1⟩)], [⟨"a", 0⟩]⟩, ⟨[], [], [.noChanges]⟩) ∧
      removedNames [("a", ⟨["x"], some 1⟩)] [("a", ["x"])] = [] ∧
      addedNames [("a", ⟨["x"], some 1⟩)] [("a", ["x"])] = [] ∧
      changedNames [("a", ⟨["x"], some 1⟩)] [("a", ["x"])] = [] :=
  C5_noop_reload ⟨[("a", ⟨["x"], some 1⟩)], [⟨"a", 0⟩]⟩ [("a", ["x"])]
    (fun _ => true) (fun _ => .ok 2) 7 [("a", ["x"])] (fun _ => false)
    (fun _ => .err) 9 ⟨[("a", ⟨["x"], some 1⟩)], [⟨"a", 0⟩]⟩ ⟨[], [], [.noChanges]⟩
    (fun _ => Iff.rfl)
    (by
      intro n c hh
      by_cases hn : "a" = n
      · subst hn
        simp only [findCmd?, if_pos rfl] at hh
        injection hh with hc
        subst hc
        simp [lookupNew]
      · simp [findCmd?, hn] at hh)
    (by decide) (by decide)

/-! ### Startup lemmas -/

theorem get_cmd_future_spawned_inv {o : SpawnOutcome} {name : String} {cmd : CmdSpec}
    {now : Nat} {pid : Int} {cmd' : CmdSpec} {fut : Pending}
    (h : get_cmd_future o name cmd now = .spawned pid cmd' fut) :
    o = .ok pid ∧ cmd' = ⟨cmd.argv, some pid⟩ ∧ fut = ⟨name, now⟩ := by
  unfold get_cmd_future at h
  cases hargv : cmd.argv with
  | nil => rw [hargv] at h; cases h
  | cons a0 arest =>
    rw [hargv] at h
    cases o with
    | err => cases h
    | ok pid0 =>
      injection h with h1 h2 h3
      subst h1
      exact ⟨rfl, by rw [← h2], by rw [← h3]⟩

theorem get_cmd_future_ioError_inv {o : SpawnOutcome} {name : String} {cmd : CmdSpec}
    {now : Nat} (h : get_cmd_future o name cmd now = .ioError) : o = .err := by
  unfold get_cmd_future at h
  cases hargv : cmd.argv with
  | nil => rw [hargv] at h; cases h
  | cons a0 arest =>
    rw [hargv] at h
    cases o with
    | err => rfl
    | ok pid0 => cases h

theorem startupGo_cons_elim {spO : String → SpawnOutcome} {now : Nat} {n : String}
    {argv : List String} {rest : NewCfg} {c : Cmds} {f : List Pending} {eff : Effects}
    (h : startupGo spO now ((n, argv) :: rest) = some (c, f, eff)) :
    ∃ c' f' eff', startupGo spO now rest = some (c', f', eff') ∧
      ((∃ pid cmd fut, get_cmd_future (spO n) n ⟨argv, none⟩ now = .spawned pid cmd fut ∧
          c = (n, cmd) :: c' ∧ f = fut :: f' ∧
          eff = ⟨eff'.kills, ⟨n, argv, some pid⟩ :: eff'.spawnCalls, eff'.logs⟩)
        ∨ (get_cmd_future (spO n) n ⟨argv, none⟩ now = .ioError ∧
          c = (n, ⟨argv, none⟩) :: c' ∧ f = f' ∧
          eff = ⟨eff'.kills, ⟨n, argv, none⟩ :: eff'.spawnCalls,
            .spawnErrorAnon :: eff'.logs⟩)) := by
  simp only [startupGo] at h
  split at h
  · cases h
  · rename_i heq
    split at h
    · cases h
    · rename_i c' f' eff' heq2
      simp only [Option.some.injEq, Prod.mk.injEq] at h
      obtain ⟨rfl, rfl, rfl⟩ := h
      exact ⟨c', f', eff', heq2, Or.inr ⟨heq, rfl, rfl, rfl⟩⟩
  · rename_i pid cmd fut heq
    split at h
    · cases h
    · rename_i c' f' eff' heq2
      simp only [Option.some.injEq, Prod.mk.injEq] at h
      obtain ⟨rfl, rfl, rfl⟩ := h
      exact ⟨c', f', eff', heq2, Or.inl ⟨pid, cmd, fut, heq, rfl, rfl, rfl⟩⟩

theorem startupGo_keys {spO : String → SpawnOutcome} {now : Nat} : ∀ {cfg : NewCfg}
    {c : Cmds} {f : List Pending} {eff : Effects},
    startupGo spO now cfg = some (c, f, eff) → c.map Prod.fst = cfg.map Prod.fst := by
  intro cfg
  induction cfg with
  | nil =>
    intro c f eff h
    simp only [startupGo, Option.some.injEq, Prod.mk.injEq] at h
    obtain ⟨rfl, -, -⟩ := h
    rfl
  | cons hd rest ih =>
    obtain ⟨n, argv⟩ := hd
    intro c f eff h
    obtain ⟨c', f', eff', hrest, hcase⟩ := startupGo_cons_elim h
    rcases hcase with ⟨pid, cmd, fut, -, rfl, -, -⟩ | ⟨-, rfl, -, -⟩ <;>
      simp [ih hrest]

theorem startupGo_futures_names {spO : String → SpawnOutcome} {now : Nat} :
    ∀ {cfg : NewCfg} {c : Cmds} {f : List Pending} {eff : Effects},
    startupGo spO now cfg = some (c, f, eff) → ∀ p ∈ f, p.name ∈ cfg.map Prod.fst := by
  intro cfg
  induction cfg with
  | nil =>
    intro c f eff h p hp
    simp only [startupGo, Option.some.injEq, Prod.mk.injEq] at h
    obtain ⟨-, rfl, -⟩ := h
    cases hp
  | cons hd rest ih =>
    obtain ⟨n, argv⟩ := hd
    intro c f eff h p hp
    obtain ⟨c', f', eff', hrest, hcase⟩ := startupGo_cons_elim h
    rcases hcase with ⟨pid, cmd, fut, hspawn, -, rfl, -⟩ | ⟨-, -, rfl, -⟩
    · rcases List.mem_cons.1 hp with rfl | hp'
      · obtain ⟨-, -, rfl⟩ := get_cmd_future_spawned_inv hspawn
        exact List.mem_cons_self n _
      · exact List.mem_cons_of_mem _ (ih hrest p hp')
    · exact List.mem_cons_of_mem _ (ih hrest p hp)

theorem pendingCount_eq_zero {futs : List Pending} {n : String}
    (h : ∀ p ∈ futs, p.name ≠ n) : pendingCount futs n = 0 := by
  rw [pendingCount, List.length_eq_zero, List.filter_eq_nil_iff]
  intro p hp
  simp only [beq_iff_eq]
  exact h p hp

theorem pendingCount_cons {p : Pending} {futs : List Pending} {n : String} :
    pendingCount (p :: futs) n =
      (if p.name = n then 1 else 0) + pendingCount futs n := by
  by_cases h : p.name = n
  · simp [pendingCount, h, Nat.add_comm]
  · simp [pendingCount, h]

theorem startupGo_count {spO : String → SpawnOutcome} {now : Nat} : ∀ {cfg : NewCfg}
    {c : Cmds} {f : List Pending} {eff : Effects},
    (cfg.map Prod.fst).Nodup → startupGo spO now cfg = some (c, f, eff) →
    ∀ n cmd, findCmd? n c = some cmd →
      pendingCount f n = (if cmd.pid.isSome then 1 else 0) := by
  intro cfg
  induction cfg with
  | nil =>
    intro c f eff _ h n cmd hfind
    simp only [startupGo, Option.some.injEq, Prod.mk.injEq] at h
    obtain ⟨rfl, -, -⟩ := h
    cases hfind
  | cons hd rest ih =>
    obtain ⟨m, argv⟩ := hd
    intro c f eff hnd h n cmd hfind
    simp only [List.map_cons, List.nodup_cons] at hnd
    obtain ⟨c', f', eff', hrest, hcase⟩ := startupGo_cons_elim h
    rcases hcase with ⟨pid, cmdm, fut, hspawn, rfl, rfl, -⟩ | ⟨-, rfl, rfl, -⟩
    · obtain ⟨-, rfl, rfl⟩ := get_cmd_future_spawned_inv hspawn
      simp only [findCmd?] at hfind
      by_cases hm : m = n
      · subst hm
        rw [if_pos rfl] at hfind
        injection hfind with hc
        subst hc
        rw [pendingCount_cons, if_pos rfl]
        have hzero : pendingCount f' m = 0 := by
          apply pendingCount_eq_zero
          intro p hp hpn
          exact hnd.1 (hpn ▸ startupGo_futures_names hrest p hp)
        simp [hzero]
      · rw [if_neg hm] at hfind
        rw [pendingCount_cons, if_neg (by simpa using hm)]
        simpa using ih hnd.2 hrest n cmd hfind
    · simp only [findCmd?] at hfind
      by_cases hm : m = n
      · subst hm
        rw [if_pos rfl] at hfind
        injection hfind with hc
        subst hc
        have hzero : pendingCount f m = 0 := by
          apply pendingCount_eq_zero
          intro p hp hpn
          exact hnd.1 (hpn ▸ startupGo_futures_names hrest p hp)
        simp [hzero]
      · rw [if_neg hm] at hfind
        exact ih hnd.2 hrest n cmd hfind

/-- C2 (amended): directly after startup the spec's Entry invariant holds:
`runningId` is present iff exactly one pending completion is outstanding
for the name.  (A staged argv change later breaks the invariant, see the
counterexample.) -/
theorem C2_runningId_invariant_after_startup (spO : String → SpawnOutcome) (now : Nat)
    (cfg : NewCfg) (s : LoopState) (eff : Effects)
    (hnodup : (cfg.map Prod.fst).Nodup)
    (hst : startup spO now cfg = some (s, eff)) :
    runningIdIffOnePending s := by
  unfold startup at hst
  cases hgo : startupGo spO now cfg with
  | none => rw [hgo] at hst; cases hst
  | some r =>
    obtain ⟨c, f, eff'⟩ := r
    rw [hgo] at hst
    simp only [Option.some.injEq, Prod.mk.injEq] at hst
    obtain ⟨rfl, rfl⟩ := hst
    rintro ⟨n, cmd⟩ hmem
    have hcnodup : (c.map Prod.fst).Nodup := by
      rw [startupGo_keys hgo]; exact hnodup
    have hfind := findCmd?_eq_some_of_mem_nodup hcnodup hmem
    have hcount := startupGo_count hnodup hgo n cmd hfind
    show cmd.pid.isSome = true ↔ pendingCount f n = 1
    rw [hcount]
    by_cases hp : cmd.pid.isSome = true <;> simp [hp]

/-- Witness for C2 (amended): a two-entry startup, one spawn succeeding and
one failing, satisfies the invariant. -/
theorem C2_runningId_invariant_after_startup_witness :
    runningIdIffOnePending
      ⟨[("a", ⟨["x"], some 3⟩), ("b", ⟨["y"], none⟩)], [⟨"a", 0⟩]⟩ :=
  C2_runningId_invariant_after_startup
    (fun n => if n == "a" then .ok 3 else .err) 0 [("a", ["x"]), ("b", ["y"])]
    ⟨[("a", ⟨["x"], some 3⟩), ("b", ⟨["y"], none⟩)], [⟨"a", 0⟩]⟩
    ⟨[], [⟨"a", ["x"], some 3⟩, ⟨"b", ["y"], none⟩], [.spawnErrorAnon]⟩
    (by decide) (by decide)

/-- C2 counterexample: after an argv-change reload the entry has no
`runningId` while exactly one pending completion is still outstanding for
its name, refuting the claimed invariant at a reachable point between
event-handler executions. -/
theorem C2_counterexample :
    startup (fun _ => .ok 7) 0 [("a", ["x"])] =
      some (⟨[("a", ⟨["x"], some 7⟩)], [⟨"a", 0⟩]⟩,
        ⟨[], [⟨"a", ["x"], some 7⟩], []⟩) ∧
      iterate (.hangup (.ok [("a", ["y"])]) (fun _ => true) (fun _ => .err) 1)
          ⟨[("a", ⟨["x"], some 7⟩)], [⟨"a", 0⟩]⟩ =
        .next ⟨[("a", ⟨["y"], none⟩)], [⟨"a", 0⟩]⟩
          ⟨[⟨"a", 7, true⟩], [], [.stopping "a" 7]⟩ ∧
      ¬ runningIdIffOnePending ⟨[("a", ⟨["y"], none⟩)], [⟨"a", 0⟩]⟩ :=
  ⟨by decide, by decide, by
    simp only [runningIdIffOnePending]
    decide⟩

theorem startupGo_futures_spawned {spO : String → SpawnOutcome} {now : Nat} :
    ∀ {cfg : NewCfg} {c : Cmds} {f : List Pending} {eff : Effects},
    startupGo spO now cfg = some (c, f, eff) →
    ∀ p ∈ f, ∃ pid, spO p.name = .ok pid := by
  intro cfg
  induction cfg with
  | nil =>
    intro c f eff h p hp
    simp only [startupGo, Option.some.injEq, Prod.mk.injEq] at h
    obtain ⟨-, rfl, -⟩ := h
    cases hp
  | cons hd rest ih =>
    obtain ⟨n, argv⟩ := hd
    intro c f eff h p hp
    obtain ⟨c', f', eff', hrest, hcase⟩ := startupGo_cons_elim h
    rcases hcase with ⟨pid, cmd, fut, hspawn, -, rfl, -⟩ | ⟨-, -, rfl, -⟩
    · rcases List.mem_cons.1 hp with rfl | hp'
      · obtain ⟨hok, -, rfl⟩ := get_cmd_future_spawned_inv hspawn
        exact ⟨pid, hok⟩
      · exact ih hrest p hp'
    · exact ih hrest p hp

theorem startupGo_err_entry {spO : String → SpawnOutcome} {now : Nat} :
    ∀ {cfg : NewCfg} {c : Cmds} {f : List Pending} {eff : Effects} {n : String}
      {argv : List String},
    lookupNew n cfg = some argv → spO n = .err →
    startupGo spO now cfg = some (c, f, eff) →
    findCmd? n c = some ⟨argv, none⟩ ∧ LogMsg.spawnErrorAnon ∈ eff.logs := by
  intro cfg
  induction cfg with
  | nil =>
    intro c f eff n argv hlk
    cases hlk
  | cons hd rest ih =>
    obtain ⟨m, a⟩ := hd
    intro c f eff n argv hlk herr h
    obtain ⟨c', f', eff', hrest, hcase⟩ := startupGo_cons_elim h
    simp only [lookupNew] at hlk
    by_cases hm : m = n
    · subst hm
      rw [if_pos rfl] at hlk
      injection hlk with ha
      subst ha
      rcases hcase with ⟨pid, cmd, fut, hspawn, rfl, -, rfl⟩ | ⟨-, rfl, -, rfl⟩
      · obtain ⟨hok, -, -⟩ := get_cmd_future_spawned_inv hspawn
        rw [herr] at hok
        cases hok
      · exact ⟨by simp [findCmd?], List.mem_cons_self _ _⟩
    · rw [if_neg hm] at hlk
      obtain ⟨hfind, hlog⟩ := ih hlk herr hrest
      rcases hcase with ⟨pid, cmd, fut, -, rfl, -, rfl⟩ | ⟨-, rfl, -, rfl⟩
      · exact ⟨by simp [findCmd?, hm, hfind], hlog⟩
      · exact ⟨by simp [findCmd?, hm, hfind], List.mem_cons_of_mem _ hlog⟩

/-- C4 (amended): a name whose startup spawn fails is logged, never enters
the active set (no pending completion exists for it, and a completion
event for it can never fire), and is never retried — but, contrary to the
claim as stated, the name DOES remain in the name-to-Entry mapping, with
no runningId. -/
theorem C4_startup_spawn_failure (spO : String → SpawnOutcome) (now : Nat)
    (cfg : NewCfg) (s : LoopState) (eff : Effects) (n : String) (argv : List String)
    (c0 : CompletedCmd) (o2 : String → SpawnOutcome) (t2 : Nat)
    (hlk : lookupNew n cfg = some argv)
    (hfail : spO n = .err)
    (hst : startup spO now cfg = some (s, eff))
    (hc0 : c0.name = n) :
    findCmd? n s.cmds = some ⟨argv, none⟩ ∧
      pendingCount s.futures n = 0 ∧
      LogMsg.spawnErrorAnon ∈ eff.logs ∧
      iterate (.complete c0 o2 t2) s = .invalid := by
  unfold startup at hst
  cases hgo : startupGo spO now cfg with
  | none => rw [hgo] at hst; cases hst
  | some r =>
    obtain ⟨c, f, eff'⟩ := r
    rw [hgo] at hst
    simp only [Option.some.injEq, Prod.mk.injEq] at hst
    obtain ⟨rfl, rfl⟩ := hst
    obtain ⟨hfind, hlog⟩ := startupGo_err_entry hlk hfail hgo
    have hnone : ∀ p ∈ f, p.name ≠ n := by
      intro p hp hpn
      obtain ⟨pid, hok⟩ := startupGo_futures_spawned hgo p hp
      rw [hpn, hfail] at hok
      cases hok
    have hnotmem : (⟨c0.name, c0.startedAt⟩ : Pending) ∉ f := by
      intro hmem
      exact hnone _ hmem hc0
    refine ⟨hfind, pendingCount_eq_zero hnone, hlog, ?_⟩
    show iterate (.complete c0 o2 t2) ⟨c, f⟩ = .invalid
    simp [iterate, hnotmem]

/-- Witness for C4 (amended): a single configured name whose executable
cannot be spawned. -/
theorem C4_startup_spawn_failure_witness :
    findCmd? "bad" (⟨[("bad", ⟨["/no/such/binary"], none⟩)], []⟩ : LoopState).cmds =
        some ⟨["/no/such/binary"], none⟩ ∧
      pendingCount (⟨[("bad", ⟨["/no/such/binary"], none⟩)], []⟩ : LoopState).futures
        "bad" = 0 ∧
      LogMsg.spawnErrorAnon ∈
        (⟨[], [⟨"bad", ["/no/such/binary"], none⟩], [.spawnErrorAnon]⟩ : Effects).logs ∧
      iterate (.complete ⟨"bad", 0, some 0⟩ (fun _ => .ok 4) 9)
        ⟨[("bad", ⟨["/no/such/binary"], none⟩)], []⟩ = .invalid :=
  C4_startup_spawn_failure (fun _ => .err) 0 [("bad", ["/no/such/binary"])]
    ⟨[("bad", ⟨["/no/such/binary"], none⟩)], []⟩
    ⟨[], [⟨"bad", ["/no/such/binary"], none⟩], [.spawnErrorAnon]⟩
    "bad" ["/no/such/binary"] ⟨"bad", 0, some 0⟩ (fun _ => .ok 4) 9
    (by decide) (by decide) (by decide) (by decide)

/-- C4 counterexample: after a startup whose only spawn fails, the failed
name is still a key of the name-to-Entry mapping, refuting "absent from
the name → Entry mapping". -/
theorem C4_counterexample :
    startup (fun _ => .err) 0 [("bad", ["/no/such/binary"])] =
      some (⟨[("bad", ⟨["/no/such/binary"], none⟩)], []⟩,
        ⟨[], [⟨"bad", ["/no/such/binary"], none⟩], [.spawnErrorAnon]⟩) ∧
      findCmd? "bad" [("bad", (⟨["/no/such/binary"], none⟩ : CmdSpec))] ≠ none :=
  ⟨by decide, by decide⟩

example : shellwords_split "sleep 5" = .ok ["sleep", "5"] := rfl
example : shellwords_split "" = .ok [] := rfl
example : shellwords_split "a \"b c\"" = .ok ["a", "b c"] := rfl
example : shellwords_split "\"unclosed" = .error () := rfl

end Boss
